import Mathlib

/-!
Shallow embedding of the trie engine in src/trie.c (repository Melkor-1/trie).

The C program keeps a single global arena `struct Trie { Node *pool; int32_t
count; int32_t capacity; }` of fixed-alphabet nodes.  Here the in-use part of
the arena (`pool[0 .. count)`) is modelled as a `List Node`, so `Trie.count`
is `pool.length`; node identifiers are list indices.  The capacity/growth
arithmetic of `alloc_node` is modelled separately by `alloc_node_caps`, since
it only decides success/failure and never the contents of the nodes.
Machine `int32_t` values are modelled as `Int` (the sentinel -1 included);
bytes of the input words are modelled as `Nat`.
-/

namespace Trie

/-- Number of child slots per node, `CHILDREN_COUNT` (95) in src/trie.c. -/
def CHILDREN_COUNT : Nat := 95

/-- First printable ASCII byte, `ASCII_OFFSET` (32, space) in src/trie.c. -/
def ASCII_OFFSET : Nat := 32

/-- Sentinel for an absent child slot, `INVALID_OFFSET` (-1) in src/trie.c. -/
def INVALID_OFFSET : Int := -1

/-- Initial pool capacity, `INITIAL_POOL_CAP` (1024 * 2) in src/trie.c. -/
def INITIAL_POOL_CAP : Int := 2048

/-- Maximum value of the node identifier type `int32_t` (`INT32_MAX`). -/
def INT32_MAX : Int := 2147483647

/-- One trie node, `Node` in src/trie.c: `int32_t children[CHILDREN_COUNT]`
and a `terminal` flag. -/
structure Node where
  children : List Int
  terminal : Bool
deriving DecidableEq

/-- Value of one byte stored by C `memset` with value argument `v`: the
conversion of `v` to `unsigned char`. -/
def memset_byte (v : Int) : Nat := (v % 256).toNat

/-- Two's-complement value of an `int32_t` all four of whose bytes equal `b`
(0x01010101 = 16843009). -/
def int32_all_bytes (b : Nat) : Int :=
  let u : Int := (b : Int) * 16843009
  if u < 2147483648 then u else u - 4294967296

/-- Children array produced by the byte-wise
`memset(tmp->children, INVALID_OFFSET, sizeof tmp->children)` in `alloc_node`. -/
def memset_children (v : Int) : List Int :=
  List.replicate CHILDREN_COUNT (int32_all_bytes (memset_byte v))

/-- Node as initialized by `alloc_node` (src/trie.c:236-239): children memset
with `INVALID_OFFSET`, `terminal = false`. -/
def freshNode : Node :=
  { children := memset_children INVALID_OFFSET, terminal := false }

/-- Read the node at index `i` (`Trie.pool[i]`).  Out-of-range reads return a
blank node; the C code never performs them under the pool invariant. -/
def getNode (pool : List Node) (i : Nat) : Node := pool.getD i freshNode

/-- Child slot `k` of node `i` (`Trie.pool[i].children[k]`). -/
def childAt (pool : List Node) (i k : Nat) : Int :=
  (getNode pool i).children.getD k INVALID_OFFSET

/-- Store `v` into child slot `k` of node `i`. -/
def setChild (pool : List Node) (i k : Nat) (v : Int) : List Node :=
  pool.set i { children := (getNode pool i).children.set k v,
               terminal := (getNode pool i).terminal }

/-- Set the terminal flag of node `i` (`Trie.pool[i].terminal = true`). -/
def setTerminal (pool : List Node) (i : Nat) : List Node :=
  pool.set i { children := (getNode pool i).children, terminal := true }

/-- Content effect of a successful `alloc_node` (src/trie.c:212-241): one fresh
node is appended at index `Trie.count` and that index is returned.  The
capacity arithmetic and the failure paths are modelled by `alloc_node_caps`. -/
def alloc_node (pool : List Node) : Int × List Node :=
  (Int.ofNat pool.length, pool ++ [freshNode])

/-- Outcome of one `alloc_node` call as seen from its count/capacity state:
`exitFailure` is the `exit(EXIT_FAILURE)` taken when `remaining == 0`
(src/trie.c:218-223), `reallocFail` the `return INVALID_OFFSET` after a failed
`realloc`, and `ok` carries the new count and capacity. -/
inductive AllocOutcome where
  | exitFailure
  | reallocFail
  | ok (newCount newCapacity : Int)
deriving DecidableEq

/-- Count/capacity arithmetic of `alloc_node` (src/trie.c:212-241).
`reallocOk` says whether the environment lets `realloc` succeed. -/
def alloc_node_caps (count capacity : Int) (reallocOk : Bool) : AllocOutcome :=
  if count ≥ capacity then
    let remaining := INT32_MAX - capacity
    if remaining = 0 then AllocOutcome.exitFailure
    else
      let capacity' := capacity +
        (if remaining < INITIAL_POOL_CAP then remaining else INITIAL_POOL_CAP)
      if reallocOk then AllocOutcome.ok (count + 1) capacity' else AllocOutcome.reallocFail
  else AllocOutcome.ok (count + 1) capacity

/-- Success path of `insert_text` (src/trie.c:243-262): walk `text` from
`root_idx`, allocating a node for every absent slot, and mark the node reached
at the end of the word terminal. -/
def insert_text : List Node → Nat → List Nat → List Node
  | pool, root_idx, [] => setTerminal pool root_idx
  | pool, root_idx, c :: text =>
      let idx := c - ASCII_OFFSET
      if childAt pool root_idx idx = INVALID_OFFSET then
        let a := alloc_node pool
        insert_text (setChild a.2 root_idx idx a.1) a.1.toNat text
      else
        insert_text pool (childAt pool root_idx idx).toNat text

/-- Pure descent: the walk of `find_prefix` (src/trie.c:282-296) without the
buffer effect. -/
def lookup : List Node → Nat → List Nat → Option Nat
  | _, root_idx, [] => some root_idx
  | pool, root_idx, c :: cs =>
      let v := childAt pool root_idx (c - ASCII_OFFSET)
      if v = INVALID_OFFSET then none else lookup pool v.toNat cs

/-- Word membership: the descent for `w` reaches a terminal node. -/
def contains (pool : List Node) (root_idx : Nat) (w : List Nat) : Bool :=
  match lookup pool root_idx w with
  | none => false
  | some j => (getNode pool j).terminal

/-- Translation of `find_prefix` (src/trie.c:282-296).  `buf` models the global
`ac_buffer` contents; every matched byte is pushed via `ac_buffer_push`, and the
function returns `INVALID_OFFSET` as soon as a required slot is absent. -/
def find_prefix : List Node → Nat → List Nat → List Nat → Int × List Nat
  | _, root_idx, [], buf => (Int.ofNat root_idx, buf)
  | pool, root_idx, c :: cs, buf =>
      let v := childAt pool root_idx (c - ASCII_OFFSET)
      if v = INVALID_OFFSET then (INVALID_OFFSET, buf)
      else find_prefix pool v.toNat cs (buf ++ [c])

/-- Spec-side description of the bytes `find_prefix` pushes onto the buffer:
the query bytes matched before the first absent slot (all of them on success). -/
def consumed : List Node → Nat → List Nat → List Nat
  | _, _, [] => []
  | pool, root_idx, c :: cs =>
      let v := childAt pool root_idx (c - ASCII_OFFSET)
      if v = INVALID_OFFSET then [] else c :: consumed pool v.toNat cs

/-- Translation of `print_suggestions` (src/trie.c:346-360), collecting the
emitted words.  The C recursion terminates because child indices strictly
increase along any path; the model makes this explicit with a fuel parameter,
and the theorems use fuel `pool.length`, which the strict increase makes
sufficient. -/
def print_suggestions (pool : List Node) : Nat → Nat → List Nat → List (List Nat)
  | 0, _, _ => []
  | fuel + 1, root_idx, buf =>
      (if (getNode pool root_idx).terminal then [buf] else []) ++
      (List.range CHILDREN_COUNT).flatMap (fun i =>
        if childAt pool root_idx i = INVALID_OFFSET then []
        else print_suggestions pool fuel (childAt pool root_idx i).toNat
          (buf ++ [i + ASCII_OFFSET]))

/-- One emitted graph statement of the dot dump: a node declaration line or an
edge line. -/
inductive Stmt where
  | nodeDecl (id : Int) (label : Nat) (terminal : Bool)
  | edge (src dst : Int) (label : Nat)
deriving DecidableEq

/-- Whether a dump statement is an edge statement. -/
def Stmt.isEdge : Stmt → Bool
  | .edge _ _ _ => true
  | _ => false

/-- Translation of `dump_dot_whole` (src/trie.c:320-344): for every allocated
node in identifier order and every present slot, one node declaration and one
edge statement. -/
def dump_dot_whole (pool : List Node) : List Stmt :=
  (List.range pool.length).flatMap (fun i =>
    (List.range CHILDREN_COUNT).flatMap (fun j =>
      if childAt pool i j = INVALID_OFFSET then []
      else [Stmt.nodeDecl (childAt pool i j) (j + ASCII_OFFSET)
              ((getNode pool (childAt pool i j).toNat).terminal),
            Stmt.edge (Int.ofNat i) (childAt pool i j) (j + ASCII_OFFSET)]))

/-- Translation of `dump_dot_prefix` (src/trie.c:298-318): for every present
slot of the current node, one node declaration and one edge statement, then the
recursive dump of the child.  Fueled like `print_suggestions`. -/
def dump_dot_prefix (pool : List Node) : Nat → Nat → List Stmt
  | 0, _ => []
  | fuel + 1, root_idx =>
      (List.range CHILDREN_COUNT).flatMap (fun j =>
        if childAt pool root_idx j = INVALID_OFFSET then []
        else Stmt.nodeDecl (childAt pool root_idx j) (j + ASCII_OFFSET)
               ((getNode pool (childAt pool root_idx j).toNat).terminal)
          :: Stmt.edge (Int.ofNat root_idx) (childAt pool root_idx j) (j + ASCII_OFFSET)
          :: dump_dot_prefix pool fuel (childAt pool root_idx j).toNat)

/-- Depth-first list of the nodes visited by the recursive subtree walk
(`dump_dot_prefix` visits exactly these), fueled like the dump itself. -/
def reach_nodes (pool : List Node) : Nat → Nat → List Nat
  | 0, _ => []
  | fuel + 1, root_idx =>
      root_idx :: (List.range CHILDREN_COUNT).flatMap (fun j =>
        if childAt pool root_idx j = INVALID_OFFSET then []
        else reach_nodes pool fuel (childAt pool root_idx j).toNat)

/-- Number of present (non-`INVALID_OFFSET`) child slots of node `i`. -/
def presentCount (pool : List Node) (i : Nat) : Nat :=
  ((List.range CHILDREN_COUNT).filter (fun k => childAt pool i k != INVALID_OFFSET)).length

/-- Pool state after `init_pool`, the root `alloc_node()` call, and
`populate_trie` over the word list `ws` (src/trie.c:362-370, 504-512). -/
def buildTrie (ws : List (List Nat)) : List Node :=
  ws.foldl (fun pool w => insert_text pool 0 w) (alloc_node []).2

/-- Byte drawn from the supported alphabet: printable ASCII, 32..126. -/
def ValidByte (c : Nat) : Prop := ASCII_OFFSET ≤ c ∧ c < 127

/-- Word all of whose bytes are drawn from the alphabet. -/
def ValidWord (w : List Nat) : Prop := ∀ c ∈ w, ValidByte c

instance (c : Nat) : Decidable (ValidByte c) := by
  unfold ValidByte; infer_instance

instance (w : List Nat) : Decidable (ValidWord w) := by
  unfold ValidWord; infer_instance

/-- Structural pool invariant of the C program: every node has the full
95-slot child array, and every bound slot holds an in-range identifier that is
strictly larger than the index of the node holding it (children are always
allocated after their parent). -/
def Inv (pool : List Node) : Prop :=
  (∀ i, i < pool.length → (getNode pool i).children.length = CHILDREN_COUNT) ∧
  (∀ i k, childAt pool i k ≠ INVALID_OFFSET →
    0 ≤ childAt pool i k ∧ i < (childAt pool i k).toNat ∧
      (childAt pool i k).toNat < pool.length)

/-- No-sharing invariant: a node is the child of at most one slot (the program
binds a slot only when it is absent, always to a brand-new node). -/
def NS (pool : List Node) : Prop :=
  ∀ i k i' k', childAt pool i k ≠ INVALID_OFFSET → childAt pool i' k' ≠ INVALID_OFFSET →
    childAt pool i k = childAt pool i' k' → i = i' ∧ k = k'

/-- The slot invariant claimed by the spec: every child slot of every
allocated node is either the ABSENT sentinel or a valid in-use identifier in
`[0, count)`. -/
def SlotsOK (pool : List Node) : Prop :=
  ∀ i, i < pool.length → ∀ k, k < CHILDREN_COUNT →
    childAt pool i k = INVALID_OFFSET ∨
      (0 ≤ childAt pool i k ∧ (childAt pool i k).toNat < pool.length)

/-- Reachability along child slots. -/
inductive Reaches (pool : List Node) : Nat → Nat → Prop where
  | refl (i : Nat) : Reaches pool i i
  | step (i k m j : Nat) : childAt pool i k = Int.ofNat m → Reaches pool m j →
      Reaches pool i j

/-! ### Basic facts about nodes, slots and the pool accessors -/

theorem fresh_children : freshNode.children = List.replicate CHILDREN_COUNT INVALID_OFFSET := by
  decide

theorem childAt_freshNode (l : List Int) (k : Nat)
    (h : l = List.replicate CHILDREN_COUNT INVALID_OFFSET) :
    l.getD k INVALID_OFFSET = INVALID_OFFSET := by
  subst h
  rw [List.getD_eq_getElem?_getD, List.getElem?_replicate]
  split <;> rfl

theorem getNode_out (pool : List Node) (i : Nat) (h : pool.length ≤ i) :
    getNode pool i = freshNode := by
  unfold getNode
  exact List.getD_eq_default _ _ h

theorem childAt_out (pool : List Node) (i k : Nat) (h : pool.length ≤ i) :
    childAt pool i k = INVALID_OFFSET := by
  unfold childAt
  rw [getNode_out pool i h]
  exact childAt_freshNode _ _ fresh_children

theorem lt_length_of_childAt_ne (pool : List Node) (i k : Nat)
    (h : childAt pool i k ≠ INVALID_OFFSET) : i < pool.length := by
  by_contra hc
  exact h (childAt_out pool i k (Nat.le_of_not_lt hc))

theorem getNode_set_self (pool : List Node) (i : Nat) (nd : Node) (h : i < pool.length) :
    getNode (pool.set i nd) i = nd := by
  unfold getNode
  rw [List.getD_eq_getElem?_getD, List.getElem?_set_self h]
  rfl

theorem getNode_set_ne (pool : List Node) (i j : Nat) (nd : Node) (h : i ≠ j) :
    getNode (pool.set i nd) j = getNode pool j := by
  unfold getNode
  simp [List.getD_eq_getElem?_getD, List.getElem?_set_ne h]

theorem getNode_append_lt (pool : List Node) (x : Node) (j : Nat) (h : j < pool.length) :
    getNode (pool ++ [x]) j = getNode pool j := by
  unfold getNode
  rw [List.getD_append _ _ _ _ h]

theorem getNode_append_len (pool : List Node) (x : Node) :
    getNode (pool ++ [x]) pool.length = x := by
  unfold getNode
  rw [List.getD_append_right _ _ _ _ (Nat.le_refl _)]
  simp

theorem length_setTerminal (pool : List Node) (i : Nat) :
    (setTerminal pool i).length = pool.length := by
  unfold setTerminal; simp

theorem length_setChild (pool : List Node) (i k : Nat) (v : Int) :
    (setChild pool i k v).length = pool.length := by
  unfold setChild; simp

theorem getNode_setTerminal_self (pool : List Node) (i : Nat) (h : i < pool.length) :
    getNode (setTerminal pool i) i = { getNode pool i with terminal := true } := by
  unfold setTerminal
  exact getNode_set_self _ _ _ h

theorem getNode_setTerminal_ne (pool : List Node) (i j : Nat) (h : i ≠ j) :
    getNode (setTerminal pool i) j = getNode pool j := by
  unfold setTerminal
  exact getNode_set_ne _ _ _ _ h

theorem childAt_setTerminal (pool : List Node) (r i k : Nat) :
    childAt (setTerminal pool r) i k = childAt pool i k := by
  rcases eq_or_ne r i with h | h
  · subst h
    rcases Nat.lt_or_ge r pool.length with hr | hr
    · unfold childAt
      rw [getNode_setTerminal_self pool r hr]
    · unfold setTerminal
      rw [List.set_eq_of_length_le (by simpa using hr)]
  · unfold childAt
    rw [getNode_setTerminal_ne pool r i h]

theorem terminal_setChild (pool : List Node) (r k : Nat) (v : Int) (i : Nat) :
    (getNode (setChild pool r k v) i).terminal = (getNode pool i).terminal := by
  rcases eq_or_ne r i with h | h
  · subst h
    rcases Nat.lt_or_ge r pool.length with hr | hr
    · unfold setChild
      rw [getNode_set_self _ _ _ hr]
    · unfold setChild
      rw [List.set_eq_of_length_le (by simpa using hr)]
  · unfold setChild
    rw [getNode_set_ne _ _ _ _ h]

theorem childAt_setChild_self (pool : List Node) (r k : Nat) (v : Int)
    (hr : r < pool.length) (hk : k < (getNode pool r).children.length) :
    childAt (setChild pool r k v) r k = v := by
  unfold childAt
  unfold setChild
  rw [getNode_set_self _ _ _ hr]
  simp only
  rw [List.getD_eq_getElem?_getD, List.getElem?_set_self hk]
  rfl

theorem childAt_setChild_ne (pool : List Node) (r k : Nat) (v : Int) (i k' : Nat)
    (h : ¬ (i = r ∧ k' = k)) :
    childAt (setChild pool r k v) i k' = childAt pool i k' := by
  rcases eq_or_ne r i with hi | hi
  · subst hi
    have hk : k' ≠ k := fun hk => h ⟨rfl, hk⟩
    rcases Nat.lt_or_ge r pool.length with hr | hr
    · unfold childAt setChild
      rw [getNode_set_self _ _ _ hr]
      simp only
      rw [List.getD_eq_getElem?_getD, List.getD_eq_getElem?_getD,
        List.getElem?_set_ne (Ne.symm hk)]
    · unfold setChild
      rw [List.set_eq_of_length_le (by simpa using hr)]
  · unfold childAt setChild
    rw [getNode_set_ne _ _ _ _ hi]

theorem children_length_setChild (pool : List Node) (r k : Nat) (v : Int) (i : Nat) :
    (getNode (setChild pool r k v) i).children.length = (getNode pool i).children.length := by
  rcases eq_or_ne r i with h | h
  · subst h
    rcases Nat.lt_or_ge r pool.length with hr | hr
    · unfold setChild
      rw [getNode_set_self _ _ _ hr]
      simp
    · unfold setChild
      rw [List.set_eq_of_length_le (by simpa using hr)]
  · unfold setChild
    rw [getNode_set_ne _ _ _ _ h]

theorem children_length_setTerminal (pool : List Node) (r i : Nat) :
    (getNode (setTerminal pool r) i).children.length = (getNode pool i).children.length := by
  rcases eq_or_ne r i with h | h
  · subst h
    rcases Nat.lt_or_ge r pool.length with hr | hr
    · rw [getNode_setTerminal_self pool r hr]
    · unfold setTerminal
      rw [List.set_eq_of_length_le (by simpa using hr)]
  · rw [getNode_setTerminal_ne pool r i h]

theorem childAt_append_lt (pool : List Node) (x : Node) (i k : Nat) (h : i < pool.length) :
    childAt (pool ++ [x]) i k = childAt pool i k := by
  unfold childAt
  rw [getNode_append_lt _ _ _ h]

theorem childAt_append_len (pool : List Node) (x : Node) (k : Nat) :
    childAt (pool ++ [x]) pool.length k = x.children.getD k INVALID_OFFSET := by
  unfold childAt
  rw [getNode_append_len]

/-! ### Consequences and preservation of the structural invariants -/

theorem slot_bounds (pool : List Node) (i k : Nat) (hInv : Inv pool)
    (h : childAt pool i k ≠ INVALID_OFFSET) :
    ∃ m : Nat, childAt pool i k = Int.ofNat m ∧ i < m ∧ m < pool.length ∧
      k < CHILDREN_COUNT ∧ i < pool.length := by
  obtain ⟨hnn, hlt, hbound⟩ := hInv.2 i k h
  have hi : i < pool.length := lt_length_of_childAt_ne pool i k h
  have hk : k < CHILDREN_COUNT := by
    by_contra hk
    have hlen : (getNode pool i).children.length = CHILDREN_COUNT := hInv.1 i hi
    have : childAt pool i k = INVALID_OFFSET := by
      unfold childAt
      exact List.getD_eq_default _ _ (by rw [hlen]; exact Nat.le_of_not_lt hk)
    exact h this
  exact ⟨(childAt pool i k).toNat, (Int.toNat_of_nonneg hnn).symm, hlt, hbound, hk, hi⟩

theorem Reaches.trans (pool : List Node) (i j l : Nat)
    (h1 : Reaches pool i j) (h2 : Reaches pool j l) : Reaches pool i l := by
  induction h1 with
  | refl => exact h2
  | step i k m j hc _ ih => exact Reaches.step i k m l hc (ih h2)

theorem Reaches.le (pool : List Node) (i j : Nat) (hInv : Inv pool)
    (h : Reaches pool i j) : i ≤ j := by
  induction h with
  | refl => exact Nat.le_refl _
  | step i k m j hc _ ih =>
      have hne : childAt pool i k ≠ INVALID_OFFSET := by
        rw [hc]; intro hcon; cases hcon
      obtain ⟨m', hm', hlt, _, _, _⟩ := slot_bounds pool i k hInv hne
      have : m' = m := by
        rw [hm'] at hc
        exact Int.ofNat.inj hc
      subst this
      exact Nat.le_of_lt (Nat.lt_of_lt_of_le hlt ih)

theorem Reaches.lt_length (pool : List Node) (i j : Nat) (hInv : Inv pool)
    (hi : i < pool.length) (h : Reaches pool i j) : j < pool.length := by
  induction h with
  | refl => exact hi
  | step i k m j hc _ ih =>
      have hne : childAt pool i k ≠ INVALID_OFFSET := by
        rw [hc]; intro hcon; cases hcon
      obtain ⟨m', hm', _, hb, _, _⟩ := slot_bounds pool i k hInv hne
      have : m' = m := by
        rw [hm'] at hc
        exact Int.ofNat.inj hc
      subst this
      exact ih hb

theorem Reaches.last_step (pool : List Node) (i j : Nat) (h : Reaches pool i j) :
    i = j ∨ ∃ p k, Reaches pool i p ∧ childAt pool p k = Int.ofNat j := by
  induction h with
  | refl => exact Or.inl rfl
  | step i k m j hc _ ih =>
      rcases ih with rfl | ⟨p, k', hp, hpk⟩
      · exact Or.inr ⟨i, k, Reaches.refl i, hc⟩
      · exact Or.inr ⟨p, k', Reaches.trans pool i m p (Reaches.step i k m m hc (Reaches.refl m)) hp, hpk⟩

theorem Reaches.eq_of_no_children (pool : List Node) (i j : Nat)
    (hnone : ∀ k, childAt pool i k = INVALID_OFFSET) (h : Reaches pool i j) : j = i := by
  cases h with
  | refl => rfl
  | step i k m j hc _ =>
      rw [hnone k] at hc
      cases hc

theorem Inv_setTerminal (pool : List Node) (r : Nat) (hInv : Inv pool) :
    Inv (setTerminal pool r) := by
  constructor
  · intro i hi
    rw [children_length_setTerminal]
    exact hInv.1 i (by rwa [length_setTerminal] at hi)
  · intro i k h
    rw [childAt_setTerminal] at h ⊢
    rw [length_setTerminal]
    exact hInv.2 i k h

theorem NS_setTerminal (pool : List Node) (r : Nat) (hNS : NS pool) :
    NS (setTerminal pool r) := by
  intro i k i' k' h1 h2 heq
  simp only [childAt_setTerminal] at h1 h2 heq
  exact hNS i k i' k' h1 h2 heq

theorem Inv_append_fresh (pool : List Node) (hInv : Inv pool) :
    Inv (pool ++ [freshNode]) := by
  constructor
  · intro i hi
    rw [List.length_append, List.length_singleton] at hi
    rcases Nat.lt_or_ge i pool.length with h | h
    · rw [getNode_append_lt _ _ _ h]
      exact hInv.1 i h
    · have : i = pool.length := Nat.le_antisymm (Nat.lt_succ_iff.mp hi) h
      subst this
      rw [getNode_append_len]
      rw [fresh_children]
      simp [CHILDREN_COUNT]
  · intro i k h
    rcases Nat.lt_or_ge i pool.length with hlt | hge
    · rw [childAt_append_lt _ _ _ _ hlt] at h ⊢
      obtain ⟨hnn, hl, hb⟩ := hInv.2 i k h
      refine ⟨hnn, hl, ?_⟩
      rw [List.length_append, List.length_singleton]
      exact Nat.lt_succ_of_lt hb
    · exfalso
      rcases Nat.lt_or_ge i (pool.length + 1) with hlt1 | hge1
      · have : i = pool.length := Nat.le_antisymm (Nat.lt_succ_iff.mp hlt1) hge
        subst this
        rw [childAt_append_len] at h
        exact h (childAt_freshNode _ _ fresh_children)
      · exact h (childAt_out _ _ _ (by simpa using hge1))

theorem slot_of_append_ne (pool : List Node) (i k : Nat)
    (h : childAt (pool ++ [freshNode]) i k ≠ INVALID_OFFSET) :
    i < pool.length ∧ childAt (pool ++ [freshNode]) i k = childAt pool i k := by
  rcases Nat.lt_or_ge i pool.length with hlt | hge
  · exact ⟨hlt, childAt_append_lt _ _ _ _ hlt⟩
  · exfalso
    rcases Nat.lt_or_ge i (pool.length + 1) with hlt1 | hge1
    · have : i = pool.length := Nat.le_antisymm (Nat.lt_succ_iff.mp hlt1) hge
      subst this
      rw [childAt_append_len] at h
      exact h (childAt_freshNode _ _ fresh_children)
    · exact h (childAt_out _ _ _ (by simpa using hge1))

theorem NS_append_fresh (pool : List Node) (hNS : NS pool) :
    NS (pool ++ [freshNode]) := by
  intro i k i' k' h1 h2 heq
  obtain ⟨hi, e1⟩ := slot_of_append_ne pool i k h1
  obtain ⟨hi', e2⟩ := slot_of_append_ne pool i' k' h2
  rw [e1] at h1 heq
  rw [e2] at h2 heq
  exact hNS i k i' k' h1 h2 heq

theorem children_len_append_fresh (pool : List Node) (r : Nat) (hInv : Inv pool)
    (hr : r < pool.length) :
    (getNode (pool ++ [freshNode]) r).children.length = CHILDREN_COUNT := by
  rw [getNode_append_lt _ _ _ hr]
  exact hInv.1 r hr

theorem Inv_absent_step (pool : List Node) (r k : Nat) (hInv : Inv pool)
    (hr : r < pool.length) (hk : k < CHILDREN_COUNT) :
    Inv (setChild (pool ++ [freshNode]) r k (Int.ofNat pool.length)) := by
  have hInv2 : Inv (pool ++ [freshNode]) := Inv_append_fresh pool hInv
  have hr2 : r < (pool ++ [freshNode]).length := by
    rw [List.length_append, List.length_singleton]
    exact Nat.lt_succ_of_lt hr
  constructor
  · intro i hi
    rw [children_length_setChild]
    exact hInv2.1 i (by rwa [length_setChild] at hi)
  · intro i k' h
    rw [length_setChild, List.length_append, List.length_singleton]
    by_cases hik : i = r ∧ k' = k
    · obtain ⟨rfl, rfl⟩ := hik
      rw [childAt_setChild_self _ _ _ _ hr2
        (by rw [children_len_append_fresh pool i hInv hr]; exact hk)] at h ⊢
      refine ⟨Int.ofNat_nonneg _, ?_, ?_⟩
      · exact hr
      · exact Nat.lt_succ_self _
    · rw [childAt_setChild_ne _ _ _ _ _ _ hik] at h ⊢
      have := hInv2.2 i k' h
      rwa [List.length_append, List.length_singleton] at this

theorem NS_absent_step (pool : List Node) (r k : Nat) (hInv : Inv pool) (hNS : NS pool)
    (hr : r < pool.length) (hk : k < CHILDREN_COUNT) :
    NS (setChild (pool ++ [freshNode]) r k (Int.ofNat pool.length)) := by
  have hr2 : r < (pool ++ [freshNode]).length := by
    rw [List.length_append, List.length_singleton]
    exact Nat.lt_succ_of_lt hr
  have hksl : k < (getNode (pool ++ [freshNode]) r).children.length := by
    rw [children_len_append_fresh pool r hInv hr]; exact hk
  have hold : ∀ i k', ¬ (i = r ∧ k' = k) →
      childAt (setChild (pool ++ [freshNode]) r k (Int.ofNat pool.length)) i k' ≠ INVALID_OFFSET →
      childAt (setChild (pool ++ [freshNode]) r k (Int.ofNat pool.length)) i k'
        = childAt pool i k' ∧ childAt pool i k' ≠ INVALID_OFFSET := by
    intro i k' hne h
    rw [childAt_setChild_ne _ _ _ _ _ _ hne] at h ⊢
    obtain ⟨_, e⟩ := slot_of_append_ne pool i k' h
    rw [e] at h ⊢
    exact ⟨rfl, h⟩
  have hnewval : ∀ i k', ¬ (i = r ∧ k' = k) → childAt pool i k' ≠ INVALID_OFFSET →
      childAt pool i k' ≠ Int.ofNat pool.length := by
    intro i k' _ h
    obtain ⟨m, hm, _, hb, _, _⟩ := slot_bounds pool i k' hInv h
    rw [hm]
    intro hcon
    have := Int.ofNat.inj hcon
    omega
  intro i k1 i' k2 h1 h2 heq
  by_cases hA : i = r ∧ k1 = k
  · by_cases hB : i' = r ∧ k2 = k
    · obtain ⟨rfl, rfl⟩ := hA
      obtain ⟨h1', h2'⟩ := hB
      exact ⟨h1'.symm, h2'.symm⟩
    · exfalso
      obtain ⟨rfl, rfl⟩ := hA
      obtain ⟨e2, hp2⟩ := hold i' k2 hB h2
      rw [childAt_setChild_self _ _ _ _ hr2 hksl, e2] at heq
      exact hnewval i' k2 hB hp2 heq.symm
  · by_cases hB : i' = r ∧ k2 = k
    · exfalso
      obtain ⟨rfl, rfl⟩ := hB
      obtain ⟨e1, hp1⟩ := hold i k1 hA h1
      rw [childAt_setChild_self _ _ _ _ hr2 hksl, e1] at heq
      exact hnewval i k1 hA hp1 heq
    · obtain ⟨e1, hp1⟩ := hold i k1 hA h1
      obtain ⟨e2, hp2⟩ := hold i' k2 hB h2
      rw [e1, e2] at heq
      exact hNS i k1 i' k2 hp1 hp2 heq

theorem valid_idx_lt (c : Nat) (h : ValidByte c) : c - ASCII_OFFSET < CHILDREN_COUNT := by
  obtain ⟨h1, h2⟩ := h
  unfold ASCII_OFFSET at h1 ⊢
  unfold CHILDREN_COUNT
  omega

theorem Inv_insert : ∀ (w : List Nat) (pool : List Node) (r : Nat), Inv pool →
    r < pool.length → ValidWord w → Inv (insert_text pool r w) := by
  intro w
  induction w with
  | nil =>
      intro pool r hInv _ _
      exact Inv_setTerminal pool r hInv
  | cons c cs ih =>
      intro pool r hInv hr hw
      have hc : ValidByte c := hw c (List.mem_cons_self c cs)
      have hcs : ValidWord cs := fun b hb => hw b (List.mem_cons_of_mem c hb)
      have hidx : c - ASCII_OFFSET < CHILDREN_COUNT := valid_idx_lt c hc
      rw [insert_text]
      by_cases h : childAt pool r (c - ASCII_OFFSET) = INVALID_OFFSET
      · simp only [h, if_true, alloc_node]
        refine ih _ _ (Inv_absent_step pool r (c - ASCII_OFFSET) hInv hr hidx) ?_ hcs
        rw [length_setChild, List.length_append, List.length_singleton]
        exact Nat.lt_succ_self _
      · simp only [h, if_false]
        obtain ⟨m, hm, _, hb, _, _⟩ := slot_bounds pool r (c - ASCII_OFFSET) hInv h
        refine ih _ _ hInv ?_ hcs
        rw [hm]
        exact hb

theorem NS_insert : ∀ (w : List Nat) (pool : List Node) (r : Nat), Inv pool → NS pool →
    r < pool.length → ValidWord w → NS (insert_text pool r w) := by
  intro w
  induction w with
  | nil =>
      intro pool r _ hNS _ _
      exact NS_setTerminal pool r hNS
  | cons c cs ih =>
      intro pool r hInv hNS hr hw
      have hc : ValidByte c := hw c (List.mem_cons_self c cs)
      have hcs : ValidWord cs := fun b hb => hw b (List.mem_cons_of_mem c hb)
      have hidx : c - ASCII_OFFSET < CHILDREN_COUNT := valid_idx_lt c hc
      rw [insert_text]
      by_cases h : childAt pool r (c - ASCII_OFFSET) = INVALID_OFFSET
      · simp only [h, if_true, alloc_node]
        refine ih _ _ (Inv_absent_step pool r (c - ASCII_OFFSET) hInv hr hidx)
          (NS_absent_step pool r (c - ASCII_OFFSET) hInv hNS hr hidx) ?_ hcs
        rw [length_setChild, List.length_append, List.length_singleton]
        exact Nat.lt_succ_self _
      · simp only [h, if_false]
        obtain ⟨m, hm, _, hb, _, _⟩ := slot_bounds pool r (c - ASCII_OFFSET) hInv h
        refine ih _ _ hInv hNS ?_ hcs
        rw [hm]
        exact hb

theorem getNode_setChild_ne (pool : List Node) (i k : Nat) (v : Int) (j : Nat) (h : i ≠ j) :
    getNode (setChild pool i k v) j = getNode pool j := by
  unfold setChild
  exact getNode_set_ne _ _ _ _ h

theorem childAt_congr (pool pool' : List Node) (i i' k : Nat)
    (h : getNode pool i = getNode pool' i') : childAt pool i k = childAt pool' i' k := by
  unfold childAt
  rw [h]

theorem fresh_slot_absent_after_step (pool : List Node) (r k : Nat) (hr : r < pool.length) :
    ∀ k', childAt (setChild (pool ++ [freshNode]) r k (Int.ofNat pool.length))
      pool.length k' = INVALID_OFFSET := by
  intro k'
  have hne : r ≠ pool.length := Nat.ne_of_lt hr
  have h1 : getNode (setChild (pool ++ [freshNode]) r k (Int.ofNat pool.length)) pool.length
      = freshNode := by
    rw [getNode_setChild_ne _ _ _ _ _ hne]
    exact getNode_append_len pool freshNode
  unfold childAt
  rw [h1]
  exact childAt_freshNode _ _ fresh_children

theorem lookup_reaches : ∀ (v : List Nat) (pool : List Node) (i j : Nat), Inv pool →
    lookup pool i v = some j → Reaches pool i j := by
  intro v
  induction v with
  | nil =>
      intro pool i j _ h
      rw [lookup] at h
      cases h
      exact Reaches.refl i
  | cons c cs ih =>
      intro pool i j hInv h
      rw [lookup] at h
      by_cases hc : childAt pool i (c - ASCII_OFFSET) = INVALID_OFFSET
      · simp only [hc, if_true] at h
        cases h
      · simp only [hc, if_false] at h
        obtain ⟨m, hm, _, _, _, _⟩ := slot_bounds pool i (c - ASCII_OFFSET) hInv hc
        rw [hm] at h
        exact Reaches.step i (c - ASCII_OFFSET) m j hm (ih pool m j hInv h)

theorem lookup_agree : ∀ (v : List Nat) (pool pool' : List Node) (i : Nat), Inv pool →
    (∀ j, Reaches pool i j → getNode pool' j = getNode pool j) →
    lookup pool' i v = lookup pool i v := by
  intro v
  induction v with
  | nil =>
      intro pool pool' i _ _
      rfl
  | cons c cs ih =>
      intro pool pool' i hInv hag
      rw [lookup, lookup]
      have hci : childAt pool' i (c - ASCII_OFFSET) = childAt pool i (c - ASCII_OFFSET) :=
        childAt_congr _ _ _ _ _ (hag i (Reaches.refl i))
      rw [hci]
      by_cases hc : childAt pool i (c - ASCII_OFFSET) = INVALID_OFFSET
      · simp only [hc, if_true]
      · simp only [hc, if_false]
        obtain ⟨m, hm, _, _, _, _⟩ := slot_bounds pool i (c - ASCII_OFFSET) hInv hc
        rw [hm]
        exact ih pool pool' m hInv (fun j hj =>
          hag j (Reaches.step i (c - ASCII_OFFSET) m j hm hj))

theorem contains_agree (v : List Nat) (pool pool' : List Node) (i : Nat) (hInv : Inv pool)
    (hag : ∀ j, Reaches pool i j → getNode pool' j = getNode pool j) :
    contains pool' i v = contains pool i v := by
  unfold contains
  rw [lookup_agree v pool pool' i hInv hag]
  cases hl : lookup pool i v with
  | none => rfl
  | some j =>
      simp only
      rw [hag j (lookup_reaches v pool i j hInv hl)]

theorem insert_frame : ∀ (w : List Nat) (pool : List Node) (r : Nat), Inv pool →
    r < pool.length → ValidWord w → ∀ j, j < pool.length → ¬ Reaches pool r j →
    getNode (insert_text pool r w) j = getNode pool j := by
  intro w
  induction w with
  | nil =>
      intro pool r _ _ _ j _ hnr
      rw [insert_text]
      refine getNode_setTerminal_ne pool r j (fun h => hnr ?_)
      subst h
      exact Reaches.refl r
  | cons c cs ih =>
      intro pool r hInv hr hw j hj hnr
      have hc : ValidByte c := hw c (List.mem_cons_self c cs)
      have hcs : ValidWord cs := fun b hb => hw b (List.mem_cons_of_mem c hb)
      have hidx : c - ASCII_OFFSET < CHILDREN_COUNT := valid_idx_lt c hc
      rw [insert_text]
      by_cases h : childAt pool r (c - ASCII_OFFSET) = INVALID_OFFSET
      · simp only [h, if_true, alloc_node]
        have hInv1 := Inv_absent_step pool r (c - ASCII_OFFSET) hInv hr hidx
        have hlen1 : (setChild (pool ++ [freshNode]) r (c - ASCII_OFFSET)
            (Int.ofNat pool.length)).length = pool.length + 1 := by
          rw [length_setChild, List.length_append, List.length_singleton]
        have hfrom : getNode (setChild (pool ++ [freshNode]) r (c - ASCII_OFFSET)
            (Int.ofNat pool.length)) j = getNode pool j := by
          have hrj : r ≠ j := by
            intro hrj
            subst hrj
            exact hnr (Reaches.refl r)
          rw [getNode_setChild_ne _ _ _ _ _ hrj]
          exact getNode_append_lt _ _ _ hj
        rw [← hfrom]
        refine ih _ _ hInv1 ?_ hcs j ?_ ?_
        · rw [hlen1]
          exact Nat.lt_succ_self _
        · rw [hlen1]
          exact Nat.lt_succ_of_lt hj
        · intro hre
          have := Reaches.eq_of_no_children _ _ _
            (fresh_slot_absent_after_step pool r (c - ASCII_OFFSET) hr) hre
          omega
      · simp only [h, if_false]
        obtain ⟨m, hm, _, hb, _, _⟩ := slot_bounds pool r (c - ASCII_OFFSET) hInv h
        rw [hm]
        refine ih _ _ hInv hb hcs j hj ?_
        intro hre
        exact hnr (Reaches.step r (c - ASCII_OFFSET) m j hm hre)

theorem ofNat_ne_invalid (m : Nat) : Int.ofNat m ≠ INVALID_OFFSET := by
  unfold INVALID_OFFSET
  intro h
  have h2 : (0 : Int) ≤ -1 := h ▸ Int.ofNat_nonneg m
  omega

theorem ofNat_toNat_eq (n : Nat) : (Int.ofNat n).toNat = n := rfl

theorem contains_nil (pool : List Node) (r : Nat) :
    contains pool r [] = (getNode pool r).terminal := rfl

theorem contains_cons_absent (pool : List Node) (r c : Nat) (cs : List Nat)
    (h : childAt pool r (c - ASCII_OFFSET) = INVALID_OFFSET) :
    contains pool r (c :: cs) = false := by
  unfold contains
  rw [lookup]
  simp only [h, if_true]

theorem contains_cons_present (pool : List Node) (r c m : Nat) (cs : List Nat)
    (hm : childAt pool r (c - ASCII_OFFSET) = Int.ofNat m) :
    contains pool r (c :: cs) = contains pool m cs := by
  unfold contains
  rw [lookup]
  simp only [hm, ofNat_ne_invalid m, if_false, ofNat_toNat_eq]

theorem contains_blank (pool : List Node) (i : Nat) (h : getNode pool i = freshNode) :
    ∀ u, contains pool i u = false := by
  intro u
  cases u with
  | nil =>
      rw [contains_nil, h]
      rfl
  | cons c cs =>
      refine contains_cons_absent pool i c cs ?_
      unfold childAt
      rw [h]
      exact childAt_freshNode _ _ fresh_children

theorem getNode_absent_step_len (pool : List Node) (r k : Nat) (hr : r < pool.length) :
    getNode (setChild (pool ++ [freshNode]) r k (Int.ofNat pool.length)) pool.length
      = freshNode := by
  rw [getNode_setChild_ne _ _ _ _ _ (Nat.ne_of_lt hr)]
  exact getNode_append_len pool freshNode

/-- Bounds of a bound slot, phrased through the node index it stores. -/
theorem slot_lt (pool : List Node) (hInv : Inv pool) (i k m : Nat)
    (h : childAt pool i k = Int.ofNat m) : i < m ∧ m < pool.length := by
  have h2 := hInv.2 i k (by rw [h]; exact ofNat_ne_invalid m)
  rw [h] at h2
  exact ⟨h2.2.1, h2.2.2⟩

/-- Two distinct children of the same node reach disjoint sets of nodes: the
no-sharing invariant forbids any common descendant. -/
theorem sibling_disjoint (pool : List Node) (hInv : Inv pool) (hNS : NS pool)
    (r k k' m m' : Nat) (hkk : k ≠ k')
    (hm : childAt pool r k = Int.ofNat m) (hm' : childAt pool r k' = Int.ofNat m') :
    ∀ j, Reaches pool m j → Reaches pool m' j → False := by
  have hne1 : childAt pool r k ≠ INVALID_OFFSET := by
    rw [hm]; exact ofNat_ne_invalid m
  have hne2 : childAt pool r k' ≠ INVALID_OFFSET := by
    rw [hm']; exact ofNat_ne_invalid m'
  have hrm : r < m := (slot_lt pool hInv r k m hm).1
  have hrm' : r < m' := (slot_lt pool hInv r k' m' hm').1
  intro j
  induction j using Nat.strong_induction_on with
  | _ j ih =>
      intro h1 h2
      rcases Reaches.last_step pool m j h1 with hjm | ⟨p, k1, hp, hpk⟩
      · rcases Reaches.last_step pool m' j h2 with hjm' | ⟨p', k2, hp', hpk'⟩
        · exact hkk (hNS r k r k' hne1 hne2 (by rw [hm, hm', hjm, hjm'])).2
        · -- j = m, and j also has a parent slot on the m'-side; by no-sharing
          -- that parent slot is (r, k), so r is reachable from m', absurd.
          have hpr := hNS p' k2 r k (by rw [hpk']; exact ofNat_ne_invalid j) hne1
            (by rw [hpk', hm, hjm])
          have hle : m' ≤ p' := Reaches.le pool m' p' hInv hp'
          rw [hpr.1] at hle
          omega
      · rcases Reaches.last_step pool m' j h2 with hjm' | ⟨p', k2, hp', hpk'⟩
        · have hpr := hNS p k1 r k' (by rw [hpk]; exact ofNat_ne_invalid j) hne2
            (by rw [hpk, hm', hjm'])
          have hle : m ≤ p := Reaches.le pool m p hInv hp
          rw [hpr.1] at hle
          omega
        · -- j has a parent on both sides; no-sharing forces the same parent,
          -- which is then a strictly smaller common descendant.
          have hpp := hNS p k1 p' k2 (by rw [hpk]; exact ofNat_ne_invalid j)
            (by rw [hpk']; exact ofNat_ne_invalid j) (by rw [hpk, hpk'])
          have hpj : p < j := (slot_lt pool hInv p k1 j hpk).1
          have hp2 : Reaches pool m' p := by
            rw [hpp.1]
            exact hp'
          exact ih p hpj hp hp2

theorem insert_cons_absent (pool : List Node) (r c : Nat) (cs : List Nat)
    (h : childAt pool r (c - ASCII_OFFSET) = INVALID_OFFSET) :
    insert_text pool r (c :: cs) =
      insert_text (setChild (pool ++ [freshNode]) r (c - ASCII_OFFSET)
        (Int.ofNat pool.length)) pool.length cs := by
  rw [insert_text]
  simp only [h, if_true]
  rfl

theorem insert_cons_present (pool : List Node) (r c m : Nat) (cs : List Nat)
    (hm : childAt pool r (c - ASCII_OFFSET) = Int.ofNat m) :
    insert_text pool r (c :: cs) = insert_text pool m cs := by
  rw [insert_text]
  simp only [hm, ofNat_ne_invalid m, if_false]
  rfl

/-- Effect of `insert_text` on membership: inserting `w` at `r` makes exactly
the words that were already present, plus `w` itself, present at `r`. -/
theorem contains_insert : ∀ (w : List Nat) (pool : List Node) (r : Nat) (v : List Nat),
    Inv pool → NS pool → r < pool.length → ValidWord w → ValidWord v →
    contains (insert_text pool r w) r v = (contains pool r v || decide (v = w)) := by
  intro w
  induction w with
  | nil =>
      intro pool r v hInv _ hr _ hv
      rw [insert_text]
      cases v with
      | nil =>
          have h1 : contains (setTerminal pool r) r [] = true := by
            rw [contains_nil, getNode_setTerminal_self pool r hr]
          rw [h1]
          simp
      | cons c' cs' =>
          have hdec : decide ((c' :: cs') = ([] : List Nat)) = false := by simp
          rw [hdec, Bool.or_false]
          by_cases h2 : childAt pool r (c' - ASCII_OFFSET) = INVALID_OFFSET
          · rw [contains_cons_absent (setTerminal pool r) r c' cs'
              (by rw [childAt_setTerminal]; exact h2),
              contains_cons_absent pool r c' cs' h2]
          · obtain ⟨m', hm', hrm', hb', _, _⟩ := slot_bounds pool r (c' - ASCII_OFFSET) hInv h2
            rw [contains_cons_present (setTerminal pool r) r c' m' cs'
              (by rw [childAt_setTerminal]; exact hm'),
              contains_cons_present pool r c' m' cs' hm']
            refine contains_agree cs' pool _ m' hInv ?_
            intro j hj
            have hjge : m' ≤ j := Reaches.le pool m' j hInv hj
            exact getNode_setTerminal_ne pool r j (by omega)
  | cons c cs ih =>
      intro pool r v hInv hNS hr hw hv
      have hc : ValidByte c := hw c (List.mem_cons_self c cs)
      have hcs : ValidWord cs := fun b hb => hw b (List.mem_cons_of_mem c hb)
      have hidx : c - ASCII_OFFSET < CHILDREN_COUNT := valid_idx_lt c hc
      by_cases h : childAt pool r (c - ASCII_OFFSET) = INVALID_OFFSET
      · -- the slot for the first byte is absent: a fresh node is allocated
        rw [insert_cons_absent pool r c cs h]
        have hInv1 := Inv_absent_step pool r (c - ASCII_OFFSET) hInv hr hidx
        have hNS1 := NS_absent_step pool r (c - ASCII_OFFSET) hInv hNS hr hidx
        set pool1 := setChild (pool ++ [freshNode]) r (c - ASCII_OFFSET)
          (Int.ofNat pool.length) with hpool1
        have hlen1 : pool1.length = pool.length + 1 := by
          rw [hpool1, length_setChild, List.length_append, List.length_singleton]
        have hlenlt : pool.length < pool1.length := by omega
        have hrlen1 : r < pool1.length := by omega
        have hslotr : childAt pool1 r (c - ASCII_OFFSET) = Int.ofNat pool.length := by
          rw [hpool1]
          refine childAt_setChild_self _ _ _ _ ?_ ?_
          · rw [List.length_append, List.length_singleton]
            omega
          · rw [children_len_append_fresh pool r hInv hr]
            exact hidx
        have hgetlen : getNode pool1 pool.length = freshNode :=
          getNode_absent_step_len pool r (c - ASCII_OFFSET) hr
        have hfresh_slots : ∀ k', childAt pool1 pool.length k' = INVALID_OFFSET :=
          fresh_slot_absent_after_step pool r (c - ASCII_OFFSET) hr
        have hreach_len : ∀ j, Reaches pool1 pool.length j → j = pool.length :=
          fun j hj => Reaches.eq_of_no_children pool1 pool.length j hfresh_slots hj
        have hframe : ∀ j, j < pool.length →
            getNode (insert_text pool1 pool.length cs) j = getNode pool1 j := by
          intro j hj
          refine insert_frame cs pool1 pool.length hInv1 hlenlt hcs j (by omega) ?_
          intro hre
          have := hreach_len j hre
          omega
        have hslot_other : ∀ k', k' ≠ c - ASCII_OFFSET →
            childAt pool1 r k' = childAt pool r k' := by
          intro k' hk'
          rw [hpool1, childAt_setChild_ne _ _ _ _ _ _ (fun hconj => hk' hconj.2),
            childAt_append_lt _ _ _ _ hr]
        have hterm_r : (getNode pool1 r).terminal = (getNode pool r).terminal := by
          rw [hpool1, terminal_setChild, getNode_append_lt _ _ _ hr]
        cases v with
        | nil =>
            have hdec : decide (([] : List Nat) = c :: cs) = false := by simp
            rw [hdec, Bool.or_false, contains_nil, contains_nil, hframe r hr, hterm_r]
        | cons c' cs' =>
            have hvc' : ValidByte c' := hv c' (List.mem_cons_self _ _)
            have hvcs' : ValidWord cs' := fun b hb => hv b (List.mem_cons_of_mem _ hb)
            by_cases hcc : c' = c
            · subst hcc
              have hslot' : childAt (insert_text pool1 pool.length cs) r
                  (c' - ASCII_OFFSET) = Int.ofNat pool.length := by
                rw [childAt_congr (insert_text pool1 pool.length cs) pool1 r r
                  (c' - ASCII_OFFSET) (hframe r hr)]
                exact hslotr
              rw [contains_cons_present (insert_text pool1 pool.length cs) r c'
                pool.length cs' hslot']
              rw [ih pool1 pool.length cs' hInv1 hNS1 hlenlt hcs hvcs']
              rw [contains_blank pool1 pool.length hgetlen cs']
              rw [contains_cons_absent pool r c' cs' h]
              by_cases hE : cs' = cs
              · subst hE
                simp
              · have d1 : decide (cs' = cs) = false := by simp [hE]
                have d2 : decide (c' :: cs' = c' :: cs) = false := by simp [hE]
                rw [d1, d2]
            · have hidxne : c' - ASCII_OFFSET ≠ c - ASCII_OFFSET := by
                obtain ⟨ha1, ha2⟩ := hc
                obtain ⟨hb1, hb2⟩ := hvc'
                unfold ASCII_OFFSET at ha1 hb1 ⊢
                omega
              have hdec : decide ((c' :: cs') = (c :: cs)) = false := by simp [hcc]
              rw [hdec, Bool.or_false]
              have hslot'' : childAt (insert_text pool1 pool.length cs) r
                  (c' - ASCII_OFFSET) = childAt pool r (c' - ASCII_OFFSET) := by
                rw [childAt_congr (insert_text pool1 pool.length cs) pool1 r r
                  (c' - ASCII_OFFSET) (hframe r hr)]
                exact hslot_other _ hidxne
              by_cases h2 : childAt pool r (c' - ASCII_OFFSET) = INVALID_OFFSET
              · rw [contains_cons_absent (insert_text pool1 pool.length cs) r c' cs'
                  (by rw [hslot'']; exact h2),
                  contains_cons_absent pool r c' cs' h2]
              · obtain ⟨m', hm', hrm', hb', _, _⟩ :=
                  slot_bounds pool r (c' - ASCII_OFFSET) hInv h2
                rw [contains_cons_present (insert_text pool1 pool.length cs) r c' m' cs'
                  (by rw [hslot'']; exact hm'),
                  contains_cons_present pool r c' m' cs' hm']
                have hag1 : ∀ j, Reaches pool m' j → getNode pool1 j = getNode pool j := by
                  intro j hj
                  have hjm : m' ≤ j := Reaches.le pool m' j hInv hj
                  have hjl : j < pool.length := Reaches.lt_length pool m' j hInv hb' hj
                  rw [hpool1, getNode_setChild_ne _ _ _ _ _ (by omega : r ≠ j),
                    getNode_append_lt _ _ _ hjl]
                have hm1' : childAt pool1 r (c' - ASCII_OFFSET) = Int.ofNat m' := by
                  rw [hslot_other _ hidxne]
                  exact hm'
                have hnotlen : ∀ j, Reaches pool1 m' j → j ≠ pool.length := by
                  intro j hj hcon
                  subst hcon
                  rcases Reaches.last_step pool1 m' pool.length hj with hh | ⟨p, kp, hp, hpk⟩
                  · omega
                  · have hpr := hNS1 p kp r (c - ASCII_OFFSET)
                      (by rw [hpk]; exact ofNat_ne_invalid _)
                      (by rw [hslotr]; exact ofNat_ne_invalid _)
                      (by rw [hpk, hslotr])
                    have hle : m' ≤ p := Reaches.le pool1 m' p hInv1 hp
                    rw [hpr.1] at hle
                    omega
                have hag2 : ∀ j, Reaches pool1 m' j →
                    getNode (insert_text pool1 pool.length cs) j = getNode pool1 j := by
                  intro j hj
                  have hjlen : j < pool1.length :=
                    Reaches.lt_length pool1 m' j hInv1 (by omega : m' < pool1.length) hj
                  refine insert_frame cs pool1 pool.length hInv1 hlenlt hcs j hjlen ?_
                  intro hre
                  exact hnotlen j hj (hreach_len j hre)
                rw [contains_agree cs' pool1 (insert_text pool1 pool.length cs) m' hInv1 hag2,
                  contains_agree cs' pool pool1 m' hInv hag1]
      · -- the slot for the first byte is already bound
        obtain ⟨m, hm, hrm, hmb, _, _⟩ := slot_bounds pool r (c - ASCII_OFFSET) hInv h
        rw [insert_cons_present pool r c m cs hm]
        have hframe : ∀ j, j < pool.length → ¬ Reaches pool m j →
            getNode (insert_text pool m cs) j = getNode pool j :=
          insert_frame cs pool m hInv hmb hcs
        have hnode_r : getNode (insert_text pool m cs) r = getNode pool r := by
          refine hframe r hr ?_
          intro hre
          have := Reaches.le pool m r hInv hre
          omega
        cases v with
        | nil =>
            have hdec : decide (([] : List Nat) = c :: cs) = false := by simp
            rw [hdec, Bool.or_false, contains_nil, contains_nil, hnode_r]
        | cons c' cs' =>
            have hvc' : ValidByte c' := hv c' (List.mem_cons_self _ _)
            have hvcs' : ValidWord cs' := fun b hb => hv b (List.mem_cons_of_mem _ hb)
            by_cases hcc : c' = c
            · subst hcc
              have hslot' : childAt (insert_text pool m cs) r (c' - ASCII_OFFSET)
                  = Int.ofNat m := by
                rw [childAt_congr (insert_text pool m cs) pool r r (c' - ASCII_OFFSET) hnode_r]
                exact hm
              rw [contains_cons_present (insert_text pool m cs) r c' m cs' hslot',
                contains_cons_present pool r c' m cs' hm]
              rw [ih pool m cs' hInv hNS hmb hcs hvcs']
              by_cases hE : cs' = cs
              · subst hE
                simp
              · have d1 : decide (cs' = cs) = false := by simp [hE]
                have d2 : decide (c' :: cs' = c' :: cs) = false := by simp [hE]
                rw [d1, d2]
            · have hidxne : c' - ASCII_OFFSET ≠ c - ASCII_OFFSET := by
                obtain ⟨ha1, ha2⟩ := hc
                obtain ⟨hb1, hb2⟩ := hvc'
                unfold ASCII_OFFSET at ha1 hb1 ⊢
                omega
              have hdec : decide ((c' :: cs') = (c :: cs)) = false := by simp [hcc]
              rw [hdec, Bool.or_false]
              have hslot'' : childAt (insert_text pool m cs) r (c' - ASCII_OFFSET)
                  = childAt pool r (c' - ASCII_OFFSET) := by
                rw [childAt_congr (insert_text pool m cs) pool r r (c' - ASCII_OFFSET) hnode_r]
              by_cases h2 : childAt pool r (c' - ASCII_OFFSET) = INVALID_OFFSET
              · rw [contains_cons_absent (insert_text pool m cs) r c' cs'
                  (by rw [hslot'']; exact h2),
                  contains_cons_absent pool r c' cs' h2]
              · obtain ⟨m'', hm'', hrm'', hmb'', _, _⟩ :=
                  slot_bounds pool r (c' - ASCII_OFFSET) hInv h2
                rw [contains_cons_present (insert_text pool m cs) r c' m'' cs'
                  (by rw [hslot'']; exact hm''),
                  contains_cons_present pool r c' m'' cs' hm'']
                refine contains_agree cs' pool (insert_text pool m cs) m'' hInv ?_
                intro j hj
                refine hframe j (Reaches.lt_length pool m'' j hInv hmb'' hj) ?_
                intro hre
                exact sibling_disjoint pool hInv hNS r (c - ASCII_OFFSET) (c' - ASCII_OFFSET)
                  m m'' (Ne.symm hidxne) hm hm'' j hre hj

theorem length_le_insert : ∀ (w : List Nat) (pool : List Node) (r : Nat),
    pool.length ≤ (insert_text pool r w).length := by
  intro w
  induction w with
  | nil =>
      intro pool r
      rw [insert_text, length_setTerminal]
  | cons c cs ih =>
      intro pool r
      rw [insert_text]
      by_cases h : childAt pool r (c - ASCII_OFFSET) = INVALID_OFFSET
      · simp only [h, if_true, alloc_node]
        refine Nat.le_trans ?_ (ih _ _)
        rw [length_setChild, List.length_append, List.length_singleton]
        exact Nat.le_succ _
      · simp only [h, if_false]
        exact ih _ _

/-! ### Idempotence of re-inserting a present word -/

theorem set_getD_self : ∀ (l : List Node) (i : Nat), i < l.length →
    l.set i (l.getD i freshNode) = l := by
  intro l
  induction l with
  | nil =>
      intro i hi
      cases hi
  | cons x xs ih =>
      intro i hi
      cases i with
      | zero => rfl
      | succ n =>
          have := ih n (Nat.lt_of_succ_lt_succ hi)
          simp only [List.getD_cons_succ, List.set_cons_succ]
          rw [this]

theorem terminal_lt_length (pool : List Node) (r : Nat)
    (h : (getNode pool r).terminal = true) : r < pool.length := by
  by_contra hc
  rw [getNode_out pool r (Nat.le_of_not_lt hc)] at h
  cases h

theorem contains_cons_ne_invalid (pool : List Node) (r c : Nat) (cs : List Nat)
    (h : childAt pool r (c - ASCII_OFFSET) ≠ INVALID_OFFSET) :
    contains pool r (c :: cs) =
      contains pool (childAt pool r (c - ASCII_OFFSET)).toNat cs := by
  unfold contains
  rw [lookup]
  simp only [h, if_false]

theorem insert_cons_ne_invalid (pool : List Node) (r c : Nat) (cs : List Nat)
    (h : childAt pool r (c - ASCII_OFFSET) ≠ INVALID_OFFSET) :
    insert_text pool r (c :: cs) =
      insert_text pool (childAt pool r (c - ASCII_OFFSET)).toNat cs := by
  rw [insert_text]
  simp only [h, if_false]

/-- Re-inserting a word that is already present changes nothing at all: the
walk finds every slot bound and the final node already terminal. -/
theorem insert_of_contains : ∀ (w : List Nat) (pool : List Node) (r : Nat),
    contains pool r w = true → insert_text pool r w = pool := by
  intro w
  induction w with
  | nil =>
      intro pool r h
      rw [contains_nil] at h
      have hr : r < pool.length := terminal_lt_length pool r h
      rw [insert_text]
      unfold setTerminal
      have hnode : { children := (getNode pool r).children, terminal := true }
          = getNode pool r := by
        cases hG : getNode pool r with
        | mk ch t =>
            rw [hG] at h
            simp only at h ⊢
            rw [h]
      rw [hnode]
      exact set_getD_self pool r hr
  | cons c cs ih =>
      intro pool r h
      have hne : childAt pool r (c - ASCII_OFFSET) ≠ INVALID_OFFSET := by
        intro hc
        rw [contains_cons_absent pool r c cs hc] at h
        cases h
      rw [insert_cons_ne_invalid pool r c cs hne]
      refine ih pool _ ?_
      rw [← contains_cons_ne_invalid pool r c cs hne]
      exact h

/-! ### The pool built by the program: root allocation plus populate_trie -/

theorem Inv_initial : Inv [freshNode] := by
  constructor
  · intro i hi
    rw [List.length_singleton] at hi
    have : i = 0 := by omega
    subst this
    have : getNode [freshNode] 0 = freshNode := rfl
    rw [this, fresh_children]
    simp [CHILDREN_COUNT]
  · intro i k h
    exfalso
    rcases Nat.lt_or_ge i 1 with hi | hi
    · have : i = 0 := by omega
      subst this
      have : childAt [freshNode] 0 k = INVALID_OFFSET := by
        unfold childAt
        exact childAt_freshNode _ _ fresh_children
      exact h this
    · exact h (childAt_out _ _ _ (by simpa using hi))

theorem NS_initial : NS [freshNode] := by
  intro i k i' k' h1 _ _
  exfalso
  rcases Nat.lt_or_ge i 1 with hi | hi
  · have : i = 0 := by omega
    subst this
    have : childAt [freshNode] 0 k = INVALID_OFFSET := by
      unfold childAt
      exact childAt_freshNode _ _ fresh_children
    exact h1 this
  · exact h1 (childAt_out _ _ _ (by simpa using hi))

theorem contains_initial (v : List Nat) : contains [freshNode] 0 v = false :=
  contains_blank [freshNode] 0 rfl v

theorem build_loop : ∀ (ws : List (List Nat)) (pool : List Node), Inv pool → NS pool →
    0 < pool.length → (∀ w ∈ ws, ValidWord w) →
    Inv (ws.foldl (fun p w => insert_text p 0 w) pool) ∧
    NS (ws.foldl (fun p w => insert_text p 0 w) pool) ∧
    pool.length ≤ (ws.foldl (fun p w => insert_text p 0 w) pool).length ∧
    ∀ v, ValidWord v → contains (ws.foldl (fun p w => insert_text p 0 w) pool) 0 v
      = (contains pool 0 v || decide (v ∈ ws)) := by
  intro ws
  induction ws with
  | nil =>
      intro pool hInv hNS hpos _
      refine ⟨hInv, hNS, Nat.le_refl _, ?_⟩
      intro v _
      simp
  | cons w ws ih =>
      intro pool hInv hNS hpos hws
      have hw : ValidWord w := hws w (List.mem_cons_self w ws)
      have hws' : ∀ u ∈ ws, ValidWord u := fun u hu => hws u (List.mem_cons_of_mem w hu)
      have hInv' : Inv (insert_text pool 0 w) := Inv_insert w pool 0 hInv hpos hw
      have hNS' : NS (insert_text pool 0 w) := NS_insert w pool 0 hInv hNS hpos hw
      have hpos' : 0 < (insert_text pool 0 w).length :=
        Nat.lt_of_lt_of_le hpos (length_le_insert w pool 0)
      obtain ⟨hI, hN, hL, hC⟩ := ih (insert_text pool 0 w) hInv' hNS' hpos' hws'
      refine ⟨hI, hN, Nat.le_trans (length_le_insert w pool 0) hL, ?_⟩
      intro v hv
      have h1 := hC v hv
      rw [List.foldl_cons] at *
      rw [h1, contains_insert w pool 0 v hInv hNS hpos hw hv]
      have h2 : decide (v ∈ w :: ws) = (decide (v = w) || decide (v ∈ ws)) := by
        simp [List.mem_cons]
      rw [h2, Bool.or_assoc]

theorem buildTrie_eq (ws : List (List Nat)) :
    buildTrie ws = ws.foldl (fun p w => insert_text p 0 w) [freshNode] := rfl

theorem buildTrie_facts (ws : List (List Nat)) (hws : ∀ w ∈ ws, ValidWord w) :
    Inv (buildTrie ws) ∧ NS (buildTrie ws) ∧ 0 < (buildTrie ws).length ∧
    ∀ v, ValidWord v → contains (buildTrie ws) 0 v = decide (v ∈ ws) := by
  obtain ⟨hI, hN, hL, hC⟩ := build_loop ws [freshNode] Inv_initial NS_initial
    (by simp) hws
  rw [buildTrie_eq]
  refine ⟨hI, hN, Nat.lt_of_lt_of_le (by simp) hL, ?_⟩
  intro v hv
  rw [hC v hv, contains_initial v, Bool.false_or]

/-! ### Behaviour of find_prefix: returned node and buffer effect -/

theorem find_prefix_fst_none : ∀ (p : List Nat) (pool : List Node) (r : Nat) (buf : List Nat),
    lookup pool r p = none → ( find_prefix pool r p buf).1 = INVALID_OFFSET := by
  intro p
  induction p with
  | nil =>
      intro pool r buf h
      rw [lookup] at h
      cases h
  | cons c cs ih =>
      intro pool r buf h
      rw [lookup] at h
      rw [ find_prefix]
      by_cases hc : childAt pool r (c - ASCII_OFFSET) = INVALID_OFFSET
      · simp only [hc, if_true]
      · simp only [hc, if_false] at h ⊢
        exact ih pool _ _ h

theorem find_prefix_fst_some : ∀ (p : List Nat) (pool : List Node) (r : Nat) (buf : List Nat)
    (j : Nat), lookup pool r p = some j → ( find_prefix pool r p buf).1 = Int.ofNat j := by
  intro p
  induction p with
  | nil =>
      intro pool r buf j h
      rw [lookup] at h
      cases h
      rfl
  | cons c cs ih =>
      intro pool r buf j h
      rw [lookup] at h
      rw [ find_prefix]
      by_cases hc : childAt pool r (c - ASCII_OFFSET) = INVALID_OFFSET
      · simp only [hc, if_true] at h
        cases h
      · simp only [hc, if_false] at h ⊢
        exact ih pool _ _ j h

theorem find_prefix_success (p : List Nat) (pool : List Node) (r : Nat) (buf : List Nat)
    (j : Nat) (h : ( find_prefix pool r p buf).1 = Int.ofNat j) : lookup pool r p = some j := by
  cases hl : lookup pool r p with
  | none =>
      rw [find_prefix_fst_none p pool r buf hl] at h
      exact absurd h.symm (ofNat_ne_invalid j)
  | some j' =>
      rw [find_prefix_fst_some p pool r buf j' hl] at h
      rw [Int.ofNat.inj h]

theorem find_prefix_buf : ∀ (p : List Nat) (pool : List Node) (r : Nat) (buf : List Nat),
    ( find_prefix pool r p buf).2 = buf ++ consumed pool r p := by
  intro p
  induction p with
  | nil =>
      intro pool r buf
      rw [ find_prefix, consumed]
      simp
  | cons c cs ih =>
      intro pool r buf
      rw [ find_prefix, consumed]
      by_cases hc : childAt pool r (c - ASCII_OFFSET) = INVALID_OFFSET
      · simp only [hc, if_true]
        simp
      · simp only [hc, if_false]
        rw [ih pool _ _]
        simp

theorem consumed_of_some : ∀ (p : List Nat) (pool : List Node) (r j : Nat),
    lookup pool r p = some j → consumed pool r p = p := by
  intro p
  induction p with
  | nil =>
      intro pool r j _
      rfl
  | cons c cs ih =>
      intro pool r j h
      rw [lookup] at h
      rw [consumed]
      by_cases hc : childAt pool r (c - ASCII_OFFSET) = INVALID_OFFSET
      · simp only [hc, if_true] at h
        cases h
      · simp only [hc, if_false] at h ⊢
        rw [ih pool _ j h]

theorem lookup_none_decomp : ∀ (p : List Nat) (pool : List Node) (r : Nat),
    lookup pool r p = none →
    ∃ c rest j, p = consumed pool r p ++ c :: rest ∧
      lookup pool r (consumed pool r p) = some j ∧
      childAt pool j (c - ASCII_OFFSET) = INVALID_OFFSET := by
  intro p
  induction p with
  | nil =>
      intro pool r h
      rw [lookup] at h
      cases h
  | cons c cs ih =>
      intro pool r h
      rw [lookup] at h
      by_cases hc : childAt pool r (c - ASCII_OFFSET) = INVALID_OFFSET
      · refine ⟨c, cs, r, ?_, ?_, hc⟩
        · rw [consumed]
          simp only [hc, if_true]
          rfl
        · rw [consumed]
          simp only [hc, if_true]
          rfl
      · simp only [hc, if_false] at h
        obtain ⟨c', rest, j, h1, h2, h3⟩ := ih pool _ h
        refine ⟨c', rest, j, ?_, ?_, h3⟩
        · rw [consumed]
          simp only [hc, if_false]
          rw [List.cons_append, ← h1]
        · rw [consumed]
          simp only [hc, if_false]
          rw [lookup]
          simp only [hc, if_false]
          exact h2

/-! ### Suggestion traversal: lexicographic helpers -/

theorem lex_append_cons (l t : List Nat) (a : Nat) :
    List.Lex (· < ·) l (l ++ a :: t) := by
  induction l with
  | nil => exact List.Lex.nil
  | cons x xs ih => exact List.Lex.cons ih

theorem lex_lt_append (l : List Nat) (s t : List Nat) (a b : Nat) (h : a < b) :
    List.Lex (· < ·) (l ++ a :: s) (l ++ b :: t) := by
  induction l with
  | nil => exact List.Lex.rel h
  | cons x xs ih => exact List.Lex.cons ih

theorem pairwise_flatMap_of {α β : Type} (R : β → β → Prop) (l : List α) (f : α → List β)
    (h1 : ∀ a ∈ l, List.Pairwise R (f a))
    (h2 : List.Pairwise (fun a b => ∀ x ∈ f a, ∀ y ∈ f b, R x y) l) :
    List.Pairwise R (l.flatMap f) := by
  induction l with
  | nil => exact List.Pairwise.nil
  | cons a l ih =>
      rw [List.flatMap_cons]
      rw [List.pairwise_cons] at h2
      refine List.pairwise_append.mpr ⟨h1 a (List.mem_cons_self a l), ?_, ?_⟩
      · exact ih (fun b hb => h1 b (List.mem_cons_of_mem a hb)) h2.2
      · intro x hx y hy
        obtain ⟨b, hb, hyb⟩ := List.mem_flatMap.mp hy
        exact h2.1 b hb x hx y hyb

theorem ps_prefix : ∀ (fuel : Nat) (pool : List Node) (r : Nat) (buf x : List Nat),
    x ∈ print_suggestions pool fuel r buf → buf <+: x := by
  intro fuel
  induction fuel with
  | zero =>
      intro pool r buf x hx
      rw [print_suggestions] at hx
      cases hx
  | succ fuel ih =>
      intro pool r buf x hx
      rw [print_suggestions] at hx
      rcases List.mem_append.mp hx with hx1 | hx2
      · have : x = buf := by
          by_cases ht : (getNode pool r).terminal
          · simp only [ht, if_true] at hx1
            exact (List.mem_singleton.mp hx1)
          · simp only [ht, if_false] at hx1
            cases hx1
        rw [this]
      · obtain ⟨i, _, hxi⟩ := List.mem_flatMap.mp hx2
        by_cases hc : childAt pool r i = INVALID_OFFSET
        · simp only [hc, if_true] at hxi
          cases hxi
        · simp only [hc, if_false] at hxi
          have := ih pool _ _ x hxi
          exact List.IsPrefix.trans (List.prefix_append buf [i + ASCII_OFFSET]) this

theorem valid_byte_of_range (i : Nat) (h : i < CHILDREN_COUNT) :
    ValidByte (i + ASCII_OFFSET) := by
  unfold ValidByte ASCII_OFFSET CHILDREN_COUNT at *
  omega

theorem idx_add_offset (i : Nat) : (i + ASCII_OFFSET) - ASCII_OFFSET = i := by
  unfold ASCII_OFFSET
  omega

theorem byte_add_offset (c : Nat) (h : ValidByte c) : c - ASCII_OFFSET + ASCII_OFFSET = c := by
  obtain ⟨h1, _⟩ := h
  unfold ASCII_OFFSET at h1 ⊢
  omega

/-- Words collected by the suggestion walk from `r`: exactly the extensions of
the current buffer by an alphabet-valid suffix that descends to a terminal
node.  The fuel bound `pool.length - r` always suffices because child indices
strictly increase. -/
theorem ps_mem : ∀ (fuel : Nat) (pool : List Node) (r : Nat) (buf x : List Nat),
    Inv pool → r < pool.length → pool.length - r ≤ fuel →
    (x ∈ print_suggestions pool fuel r buf ↔
      ∃ s, x = buf ++ s ∧ ValidWord s ∧ contains pool r s = true) := by
  intro fuel
  induction fuel with
  | zero =>
      intro pool r buf x _ hr hf
      exact absurd hf (by omega)
  | succ fuel ih =>
      intro pool r buf x hInv hr hf
      rw [print_suggestions]
      constructor
      · intro hx
        rcases List.mem_append.mp hx with hx1 | hx2
        · by_cases ht : (getNode pool r).terminal
          · simp only [ht, if_true] at hx1
            have hxb : x = buf := List.mem_singleton.mp hx1
            refine ⟨[], by rw [hxb]; simp, ?_, ?_⟩
            · intro c hc
              exact absurd hc (List.not_mem_nil c)
            · rw [contains_nil]
              exact ht
          · simp only [ht, if_false] at hx1
            cases hx1
        · obtain ⟨i, hi, hxi⟩ := List.mem_flatMap.mp hx2
          have hirange : i < CHILDREN_COUNT := List.mem_range.mp hi
          by_cases hc : childAt pool r i = INVALID_OFFSET
          · simp only [hc, if_true] at hxi
            cases hxi
          · simp only [hc, if_false] at hxi
            obtain ⟨m, hm, hrm, hmb, _, _⟩ := slot_bounds pool r i hInv hc
            rw [hm, ofNat_toNat_eq] at hxi
            obtain ⟨s', hxs, hvs, hcs⟩ :=
              (ih pool m (buf ++ [i + ASCII_OFFSET]) x hInv hmb (by omega)).mp hxi
            refine ⟨(i + ASCII_OFFSET) :: s', ?_, ?_, ?_⟩
            · rw [hxs]
              simp
            · intro b hb
              rcases List.mem_cons.mp hb with rfl | hb'
              · exact valid_byte_of_range i hirange
              · exact hvs b hb'
            · rw [contains_cons_present pool r (i + ASCII_OFFSET) m s'
                (by rw [idx_add_offset]; exact hm)]
              exact hcs
      · rintro ⟨s, rfl, hvs, hcs⟩
        cases s with
        | nil =>
            rw [contains_nil] at hcs
            refine List.mem_append.mpr (Or.inl ?_)
            simp only [hcs, if_true]
            simp
        | cons c s' =>
            have hvc : ValidByte c := hvs c (List.mem_cons_self _ _)
            have hvs' : ValidWord s' := fun b hb => hvs b (List.mem_cons_of_mem _ hb)
            have hidx : c - ASCII_OFFSET < CHILDREN_COUNT := valid_idx_lt c hvc
            have hne : childAt pool r (c - ASCII_OFFSET) ≠ INVALID_OFFSET := by
              intro hc0
              rw [contains_cons_absent pool r c s' hc0] at hcs
              cases hcs
            obtain ⟨m, hm, hrm, hmb, _, _⟩ := slot_bounds pool r (c - ASCII_OFFSET) hInv hne
            have hcs' : contains pool m s' = true := by
              rw [← contains_cons_present pool r c m s' hm]
              exact hcs
            refine List.mem_append.mpr (Or.inr ?_)
            refine List.mem_flatMap.mpr ⟨c - ASCII_OFFSET, List.mem_range.mpr hidx, ?_⟩
            simp only [hne, if_false]
            rw [hm, ofNat_toNat_eq, byte_add_offset c hvc]
            refine (ih pool m (buf ++ [c]) (buf ++ c :: s') hInv hmb (by omega)).mpr ?_
            exact ⟨s', by simp, hvs', hcs'⟩

/-- The suggestion walk emits in strictly increasing lexicographic order: the
current word (terminal hit) comes first, then the child subtrees in ascending
slot order, each recursively ordered. -/
theorem ps_sorted : ∀ (fuel : Nat) (pool : List Node) (r : Nat) (buf : List Nat),
    Inv pool → r < pool.length → pool.length - r ≤ fuel →
    List.Pairwise (fun a b => List.Lex (· < ·) a b) (print_suggestions pool fuel r buf) := by
  intro fuel
  induction fuel with
  | zero =>
      intro pool r buf _ hr hf
      exact absurd hf (by omega)
  | succ fuel ih =>
      intro pool r buf hInv hr hf
      rw [print_suggestions]
      refine List.pairwise_append.mpr ⟨?_, ?_, ?_⟩
      · by_cases ht : (getNode pool r).terminal
        · simp only [ht, if_true]
          exact List.pairwise_singleton _ _
        · simp only [ht, if_false]
          exact List.Pairwise.nil
      · refine pairwise_flatMap_of _ _ _ ?_ ?_
        · intro i _
          by_cases hc : childAt pool r i = INVALID_OFFSET
          · simp only [hc, if_true]
            exact List.Pairwise.nil
          · simp only [hc, if_false]
            obtain ⟨m, hm, hrm, hmb, _, _⟩ := slot_bounds pool r i hInv hc
            rw [hm, ofNat_toNat_eq]
            exact ih pool m _ hInv hmb (by omega)
        · refine List.Pairwise.imp ?_ (List.pairwise_lt_range CHILDREN_COUNT)
          intro i j hij x hx y hy
          by_cases hci : childAt pool r i = INVALID_OFFSET
          · simp only [hci, if_true] at hx
            cases hx
          · simp only [hci, if_false] at hx
            by_cases hcj : childAt pool r j = INVALID_OFFSET
            · simp only [hcj, if_true] at hy
              cases hy
            · simp only [hcj, if_false] at hy
              obtain ⟨tx, htx⟩ := ps_prefix _ _ _ _ _ hx
              obtain ⟨ty, hty⟩ := ps_prefix _ _ _ _ _ hy
              rw [← htx, ← hty]
              have hx' : (buf ++ [i + ASCII_OFFSET]) ++ tx
                  = buf ++ (i + ASCII_OFFSET) :: tx := by simp
              have hy' : (buf ++ [j + ASCII_OFFSET]) ++ ty
                  = buf ++ (j + ASCII_OFFSET) :: ty := by simp
              rw [hx', hy']
              exact lex_lt_append buf tx ty _ _ (by omega)
      · intro x hx y hy
        by_cases ht : (getNode pool r).terminal
        · simp only [ht, if_true] at hx
          have hxb : x = buf := List.mem_singleton.mp hx
          obtain ⟨i, hi, hyi⟩ := List.mem_flatMap.mp hy
          by_cases hc : childAt pool r i = INVALID_OFFSET
          · simp only [hc, if_true] at hyi
            cases hyi
          · simp only [hc, if_false] at hyi
            obtain ⟨ty, hty⟩ := ps_prefix _ _ _ _ _ hyi
            rw [hxb, ← hty]
            have : (buf ++ [i + ASCII_OFFSET]) ++ ty
                = buf ++ (i + ASCII_OFFSET) :: ty := by simp
            rw [this]
            exact lex_append_cons buf ty (i + ASCII_OFFSET)
        · simp only [ht, if_false] at hx
          cases hx

theorem lookup_append_some : ∀ (p : List Nat) (pool : List Node) (r j : Nat) (s : List Nat),
    lookup pool r p = some j → lookup pool r (p ++ s) = lookup pool j s := by
  intro p
  induction p with
  | nil =>
      intro pool r j s h
      rw [lookup] at h
      cases h
      rfl
  | cons c cs ih =>
      intro pool r j s h
      rw [lookup] at h
      rw [List.cons_append, lookup]
      by_cases hc : childAt pool r (c - ASCII_OFFSET) = INVALID_OFFSET
      · simp only [hc, if_true] at h
        cases h
      · simp only [hc, if_false] at h ⊢
        exact ih pool _ j s h

/-! ### Counting the emitted edge statements of the dot dumps -/

theorem filterlen_flatMap {α : Type} (p : Stmt → Bool) (L : List α) (f : α → List Stmt) :
    ((L.flatMap f).filter p).length = (L.map (fun a => ((f a).filter p).length)).sum := by
  induction L with
  | nil => rfl
  | cons a L ih =>
      rw [List.flatMap_cons, List.filter_append, List.length_append, List.map_cons,
        List.sum_cons, ih]

theorem summap_flatMap {α : Type} (g : Nat → Nat) (L : List α) (f : α → List Nat) :
    ((L.flatMap f).map g).sum = (L.map (fun a => ((f a).map g).sum)).sum := by
  induction L with
  | nil => rfl
  | cons a L ih =>
      rw [List.flatMap_cons, List.map_append, List.sum_append, List.map_cons,
        List.sum_cons, ih]

theorem summap_add {α : Type} (L : List α) (u v : α → Nat) :
    (L.map (fun a => u a + v a)).sum = (L.map u).sum + (L.map v).sum := by
  induction L with
  | nil => rfl
  | cons a L ih =>
      rw [List.map_cons, List.map_cons, List.map_cons, List.sum_cons, List.sum_cons,
        List.sum_cons, ih]
      omega

theorem filterlen_as_summap {α : Type} (L : List α) (q : α → Bool) :
    (L.filter q).length = (L.map (fun a => if q a then 1 else 0)).sum := by
  induction L with
  | nil => rfl
  | cons a L ih =>
      rw [List.filter_cons, List.map_cons, List.sum_cons]
      by_cases h : q a
      · rw [if_pos h, if_pos h, List.length_cons, ih]
        omega
      · rw [if_neg h, if_neg h, ih]
        omega

theorem presentCount_as_summap (pool : List Node) (i : Nat) :
    presentCount pool i = ((List.range CHILDREN_COUNT).map
      (fun k => if childAt pool i k = INVALID_OFFSET then 0 else 1)).sum := by
  unfold presentCount
  rw [filterlen_as_summap]
  refine congrArg List.sum (List.map_congr_left ?_)
  intro k _
  by_cases h : childAt pool i k = INVALID_OFFSET
  · simp [h]
  · simp [h]

/-- Edge statements of the whole-tree dump: one per present slot of each
allocated node. -/
theorem dump_whole_edge_count (pool : List Node) :
    ((dump_dot_whole pool).filter Stmt.isEdge).length
      = ((List.range pool.length).map (presentCount pool)).sum := by
  unfold dump_dot_whole
  rw [filterlen_flatMap]
  refine congrArg List.sum (List.map_congr_left ?_)
  intro i _
  rw [filterlen_flatMap, presentCount_as_summap]
  refine congrArg List.sum (List.map_congr_left ?_)
  intro k _
  by_cases h : childAt pool i k = INVALID_OFFSET
  · simp [h]
  · simp [h, Stmt.isEdge]

/-- Edge statements of the subtree dump: one per present slot of each node the
recursive walk visits. -/
theorem dump_sub_edge_count : ∀ (fuel : Nat) (pool : List Node) (r : Nat),
    (( dump_dot_prefix pool fuel r).filter Stmt.isEdge).length
      = ((reach_nodes pool fuel r).map (presentCount pool)).sum := by
  intro fuel
  induction fuel with
  | zero =>
      intro pool r
      rfl
  | succ fuel ih =>
      intro pool r
      rw [ dump_dot_prefix, reach_nodes, List.map_cons, List.sum_cons]
      rw [filterlen_flatMap, summap_flatMap, presentCount_as_summap]
      rw [← summap_add]
      refine congrArg List.sum (List.map_congr_left ?_)
      intro k _
      by_cases h : childAt pool r k = INVALID_OFFSET
      · simp [h]
      · simp only [h, if_false]
        rw [List.filter_cons, List.filter_cons]
        have h1 : Stmt.isEdge (Stmt.nodeDecl (childAt pool r k) (k + ASCII_OFFSET)
            ((getNode pool (childAt pool r k).toNat).terminal)) = false := rfl
        have h2 : Stmt.isEdge (Stmt.edge (Int.ofNat r) (childAt pool r k)
            (k + ASCII_OFFSET)) = true := rfl
        simp only [h1, h2, if_false, if_true, Bool.false_eq_true, List.length_cons]
        rw [ih]
        omega

/-! ### The nodes visited by the subtree walk are exactly the reachable ones -/

theorem reach_nodes_sound : ∀ (fuel : Nat) (pool : List Node) (r j : Nat), Inv pool →
    j ∈ reach_nodes pool fuel r → Reaches pool r j := by
  intro fuel
  induction fuel with
  | zero =>
      intro pool r j _ hj
      rw [reach_nodes] at hj
      cases hj
  | succ fuel ih =>
      intro pool r j hInv hj
      rw [reach_nodes] at hj
      rcases List.mem_cons.mp hj with rfl | hj'
      · exact Reaches.refl j
      · obtain ⟨i, _, hji⟩ := List.mem_flatMap.mp hj'
        by_cases hc : childAt pool r i = INVALID_OFFSET
        · simp only [hc, if_true] at hji
          cases hji
        · simp only [hc, if_false] at hji
          obtain ⟨m, hm, _, _, _, _⟩ := slot_bounds pool r i hInv hc
          rw [hm, ofNat_toNat_eq] at hji
          exact Reaches.step r i m j hm (ih pool m j hInv hji)

theorem reach_nodes_complete : ∀ (fuel : Nat) (pool : List Node) (r j : Nat), Inv pool →
    r < pool.length → pool.length - r ≤ fuel → Reaches pool r j →
    j ∈ reach_nodes pool fuel r := by
  intro fuel
  induction fuel with
  | zero =>
      intro pool r j _ hr hf _
      exact absurd hf (by omega)
  | succ fuel ih =>
      intro pool r j hInv hr hf hre
      rw [reach_nodes]
      cases hre with
      | refl => exact List.mem_cons_self _ _
      | step i k m j hc hrest =>
          refine List.mem_cons_of_mem _ ?_
          obtain ⟨m', hm', hlt, hmb, hk, _⟩ := slot_bounds pool r k hInv
            (by rw [hc]; exact ofNat_ne_invalid m)
          rw [hc] at hm'
          have hmm : m' = m := Int.ofNat.inj hm'.symm
          subst hmm
          refine List.mem_flatMap.mpr ⟨k, List.mem_range.mpr hk, ?_⟩
          simp only [hc, ofNat_ne_invalid m', if_false]
          rw [ofNat_toNat_eq]
          exact ih pool m' j hInv hmb (by omega) hrest

theorem reach_nodes_nodup : ∀ (fuel : Nat) (pool : List Node) (r : Nat), Inv pool →
    NS pool → r < pool.length → pool.length - r ≤ fuel →
    (reach_nodes pool fuel r).Nodup := by
  intro fuel
  induction fuel with
  | zero =>
      intro pool r _ _ hr hf
      exact absurd hf (by omega)
  | succ fuel ih =>
      intro pool r hInv hNS hr hf
      rw [reach_nodes]
      refine List.nodup_cons.mpr ⟨?_, ?_⟩
      · intro hmem
        obtain ⟨i, _, hri⟩ := List.mem_flatMap.mp hmem
        by_cases hc : childAt pool r i = INVALID_OFFSET
        · simp only [hc, if_true] at hri
          cases hri
        · simp only [hc, if_false] at hri
          obtain ⟨m, hm, hlt, hmb, _, _⟩ := slot_bounds pool r i hInv hc
          rw [hm, ofNat_toNat_eq] at hri
          have hre : Reaches pool m r := reach_nodes_sound fuel pool m r hInv hri
          have := Reaches.le pool m r hInv hre
          omega
      · refine List.nodup_flatMap.mpr ⟨?_, ?_⟩
        · intro i _
          by_cases hc : childAt pool r i = INVALID_OFFSET
          · simp only [hc, if_true]
            exact List.nodup_nil
          · simp only [hc, if_false]
            obtain ⟨m, hm, hlt, hmb, _, _⟩ := slot_bounds pool r i hInv hc
            rw [hm, ofNat_toNat_eq]
            exact ih pool m hInv hNS hmb (by omega)
        · refine List.Pairwise.imp ?_ (List.pairwise_lt_range CHILDREN_COUNT)
          intro i j hij
          intro x hxi hxj
          by_cases hci : childAt pool r i = INVALID_OFFSET
          · simp only [hci, if_true] at hxi
            cases hxi
          · simp only [hci, if_false] at hxi
            by_cases hcj : childAt pool r j = INVALID_OFFSET
            · simp only [hcj, if_true] at hxj
              cases hxj
            · simp only [hcj, if_false] at hxj
              obtain ⟨mi, hmi, _, hmib, _, _⟩ := slot_bounds pool r i hInv hci
              obtain ⟨mj, hmj, _, hmjb, _, _⟩ := slot_bounds pool r j hInv hcj
              rw [hmi, ofNat_toNat_eq] at hxi
              rw [hmj, ofNat_toNat_eq] at hxj
              exact sibling_disjoint pool hInv hNS r i j mi mj (by omega) hmi hmj x
                (reach_nodes_sound fuel pool mi x hInv hxi)
                (reach_nodes_sound fuel pool mj x hInv hxj)

/-! ### Miscellaneous bridges used by the claim theorems -/

theorem contains_iff (pool : List Node) (r : Nat) (v : List Nat) :
    contains pool r v = true ↔
      ∃ j, lookup pool r v = some j ∧ (getNode pool j).terminal = true := by
  unfold contains
  cases hl : lookup pool r v with
  | none =>
      constructor
      · intro h
        cases h
      · rintro ⟨j, hj, _⟩
        cases hj
  | some j =>
      constructor
      · intro h
        exact ⟨j, rfl, h⟩
      · rintro ⟨j', hj', ht⟩
        injection hj' with h
        subst h
        exact ht

theorem SlotsOK_of_Inv (pool : List Node) (hInv : Inv pool) : SlotsOK pool := by
  intro i _ k _
  by_cases h : childAt pool i k = INVALID_OFFSET
  · exact Or.inl h
  · obtain ⟨hn, _, hb⟩ := hInv.2 i k h
    exact Or.inr ⟨hn, hb⟩

/-! ### The claims -/

/-- C1: for every alphabet prefix P, after a successful descent
(`find_prefix` returning a node index) on the trie built from the word list
`ws`, the suggestion collection emits a word `x` exactly when `x` starts with
P and `x` is one of the inserted words: every emitted word starts with P, and
the emitted set is exactly the inserted words extending P. -/
theorem claim_C1 (ws : List (List Nat)) (P x : List Nat)
    (hws : ∀ w ∈ ws, ValidWord w) (hP : ValidWord P) (j : Nat)
    (hj : ( find_prefix (buildTrie ws) 0 P []).1 = Int.ofNat j) :
    x ∈ print_suggestions (buildTrie ws) (buildTrie ws).length j
      (( find_prefix (buildTrie ws) 0 P []).2)
    ↔ (P <+: x ∧ x ∈ ws) := by
  obtain ⟨hInv, hNS, hpos, hC⟩ := buildTrie_facts ws hws
  have hlk : lookup (buildTrie ws) 0 P = some j :=
    find_prefix_success P (buildTrie ws) 0 [] j hj
  have hjlt : j < (buildTrie ws).length :=
    Reaches.lt_length (buildTrie ws) 0 j hInv hpos
      (lookup_reaches P (buildTrie ws) 0 j hInv hlk)
  have hbuf : ( find_prefix (buildTrie ws) 0 P []).2 = P := by
    rw [find_prefix_buf, consumed_of_some P (buildTrie ws) 0 j hlk]
    simp
  rw [hbuf]
  rw [ps_mem (buildTrie ws).length (buildTrie ws) j P x hInv hjlt (by omega)]
  constructor
  · rintro ⟨s, rfl, hvs, hcs⟩
    have hx : contains (buildTrie ws) 0 (P ++ s) = true := by
      unfold contains at hcs ⊢
      rw [lookup_append_some P (buildTrie ws) 0 j s hlk]
      exact hcs
    have hvx : ValidWord (P ++ s) := by
      intro c hc
      rcases List.mem_append.mp hc with h1 | h2
      · exact hP c h1
      · exact hvs c h2
    have hmem := hC (P ++ s) hvx
    rw [hx] at hmem
    exact ⟨⟨s, rfl⟩, of_decide_eq_true hmem.symm⟩
  · rintro ⟨⟨s, rfl⟩, hmem⟩
    have hvx : ValidWord (P ++ s) := hws _ hmem
    have hvs : ValidWord s := fun c hc => hvx c (List.mem_append.mpr (Or.inr hc))
    have hx : contains (buildTrie ws) 0 (P ++ s) = true := by
      rw [hC (P ++ s) hvx]
      exact decide_eq_true hmem
    refine ⟨s, rfl, hvs, ?_⟩
    unfold contains at hx ⊢
    rw [lookup_append_some P (buildTrie ws) 0 j s hlk] at hx
    exact hx

theorem claim_C1_witness :
    ([99, 97, 116] ∈ print_suggestions (buildTrie [[99, 97, 116], [99, 97, 114]])
      (buildTrie [[99, 97, 116], [99, 97, 114]]).length 2
      (( find_prefix (buildTrie [[99, 97, 116], [99, 97, 114]]) 0 [99, 97] []).2))
    ↔ ([99, 97] <+: [99, 97, 116] ∧ [99, 97, 116] ∈ [[99, 97, 116], [99, 97, 114]]) :=
  claim_C1 [[99, 97, 116], [99, 97, 114]] [99, 97] [99, 97, 116]
    (by decide) (by decide) 2 (by decide)

/-- C2: every word that was successfully inserted descends from the root to a
node that exists (`find_prefix` returns its index, not the failure sentinel)
and is marked terminal. -/
theorem claim_C2 (ws : List (List Nat)) (w : List Nat) (buf : List Nat)
    (hws : ∀ u ∈ ws, ValidWord u) (hw : w ∈ ws) :
    ∃ j : Nat, ( find_prefix (buildTrie ws) 0 w buf).1 = Int.ofNat j ∧
      (getNode (buildTrie ws) j).terminal = true := by
  obtain ⟨hInv, hNS, hpos, hC⟩ := buildTrie_facts ws hws
  have hvw : ValidWord w := hws w hw
  have hx : contains (buildTrie ws) 0 w = true := by
    rw [hC w hvw]
    exact decide_eq_true hw
  obtain ⟨j, hl, ht⟩ := (contains_iff (buildTrie ws) 0 w).mp hx
  exact ⟨j, find_prefix_fst_some w (buildTrie ws) 0 buf j hl, ht⟩

theorem claim_C2_witness :
    ∃ j : Nat, ( find_prefix (buildTrie [[97]]) 0 [97] []).1 = Int.ofNat j ∧
      (getNode (buildTrie [[97]]) j).terminal = true :=
  claim_C2 [[97]] [97] [] (by decide) (by decide)

/-- C3: after a successful descent for a prefix P, the emitted completions are
pairwise in strictly increasing lexicographic byte order (the terminal word of
a node is emitted before its subtrees, and children are visited in ascending
alphabet-offset order), hence non-decreasing at every branch point. -/
theorem claim_C3 (ws : List (List Nat)) (P : List Nat)
    (hws : ∀ w ∈ ws, ValidWord w) (hP : ValidWord P) (j : Nat)
    (hj : ( find_prefix (buildTrie ws) 0 P []).1 = Int.ofNat j) :
    List.Pairwise (fun a b => List.Lex (· < ·) a b)
      (print_suggestions (buildTrie ws) (buildTrie ws).length j
        (( find_prefix (buildTrie ws) 0 P []).2)) := by
  obtain ⟨hInv, _, hpos, _⟩ := buildTrie_facts ws hws
  have hlk : lookup (buildTrie ws) 0 P = some j :=
    find_prefix_success P (buildTrie ws) 0 [] j hj
  have hjlt : j < (buildTrie ws).length :=
    Reaches.lt_length (buildTrie ws) 0 j hInv hpos
      (lookup_reaches P (buildTrie ws) 0 j hInv hlk)
  exact ps_sorted (buildTrie ws).length (buildTrie ws) j _ hInv hjlt (by omega)

theorem claim_C3_witness :
    List.Pairwise (fun a b => List.Lex (· < ·) a b)
      (print_suggestions (buildTrie [[99, 97, 116], [99, 97, 114]])
        (buildTrie [[99, 97, 116], [99, 97, 114]]).length 2
        (( find_prefix (buildTrie [[99, 97, 116], [99, 97, 114]]) 0 [99, 97] []).2)) :=
  claim_C3 [[99, 97, 116], [99, 97, 114]] [99, 97] (by decide) (by decide) 2 (by decide)

/-- C4: re-inserting a word `w` that was just inserted leaves the pool
literally unchanged — in particular the terminal set, all query results, and
the node count (no new allocation) are unchanged. -/
theorem claim_C4 (ws : List (List Nat)) (w : List Nat)
    (hws : ∀ u ∈ ws, ValidWord u) (hw : ValidWord w) :
    insert_text (insert_text (buildTrie ws) 0 w) 0 w
      = insert_text (buildTrie ws) 0 w ∧
    (insert_text (insert_text (buildTrie ws) 0 w) 0 w).length
      = (insert_text (buildTrie ws) 0 w).length := by
  obtain ⟨hInv, hNS, hpos, _⟩ := buildTrie_facts ws hws
  have h1 : contains (insert_text (buildTrie ws) 0 w) 0 w = true := by
    rw [contains_insert w (buildTrie ws) 0 w hInv hNS hpos hw hw]
    simp
  have h2 := insert_of_contains w (insert_text (buildTrie ws) 0 w) 0 h1
  exact ⟨h2, by rw [h2]⟩

theorem claim_C4_witness :
    insert_text (insert_text (buildTrie [[97]]) 0 [97]) 0 [97]
      = insert_text (buildTrie [[97]]) 0 [97] ∧
    (insert_text (insert_text (buildTrie [[97]]) 0 [97]) 0 [97]).length
      = (insert_text (buildTrie [[97]]) 0 [97]).length :=
  claim_C4 [[97]] [97] (by decide) (by decide)

/-- C5 counterexample: with count = capacity = 4096 (and a growth step that is
not the final one), `alloc_node` moves the capacity to 6144 = 4096 + 2048, not
to the doubled 8192 the claim requires. -/
theorem claim_C5_counterexample :
    alloc_node_caps 4096 4096 true = AllocOutcome.ok 4097 6144 ∧
    AllocOutcome.ok (4097 : Int) (6144 : Int) ≠ AllocOutcome.ok 4097 (2 * 4096) := by
  constructor
  · decide
  · decide

/-- C5 (amended): whenever allocation finds count at capacity (and capacity is
below INT32_MAX), the capacity grows by the fixed increment INITIAL_POOL_CAP —
or by exactly the remaining headroom when less than that remains — and the new
capacity never exceeds INT32_MAX. -/
theorem claim_C5 (count capacity : Int) (h1 : count ≥ capacity)
    (h2 : capacity < INT32_MAX) :
    alloc_node_caps count capacity true = AllocOutcome.ok (count + 1)
      (capacity + min (INT32_MAX - capacity) INITIAL_POOL_CAP) ∧
    capacity + min (INT32_MAX - capacity) INITIAL_POOL_CAP ≤ INT32_MAX := by
  simp only [alloc_node_caps]
  rw [if_pos h1]
  have hrem : ¬ (INT32_MAX - capacity = 0) := by
    unfold INT32_MAX at h2 ⊢
    omega
  rw [if_neg hrem, if_pos trivial]
  by_cases h3 : INT32_MAX - capacity < INITIAL_POOL_CAP
  · rw [if_pos h3]
    have hm : min (INT32_MAX - capacity) INITIAL_POOL_CAP = INT32_MAX - capacity :=
      min_eq_left (by omega)
    rw [hm]
    refine ⟨rfl, ?_⟩
    omega
  · rw [if_neg h3]
    have hm : min (INT32_MAX - capacity) INITIAL_POOL_CAP = INITIAL_POOL_CAP :=
      min_eq_right (by omega)
    rw [hm]
    refine ⟨rfl, ?_⟩
    omega

theorem claim_C5_witness :
    alloc_node_caps 4096 4096 true = AllocOutcome.ok (4096 + 1)
      (4096 + min (INT32_MAX - 4096) INITIAL_POOL_CAP) ∧
    (4096 : Int) + min (INT32_MAX - 4096) INITIAL_POOL_CAP ≤ INT32_MAX :=
  claim_C5 4096 4096 (by decide) (by decide)

/-- C6 counterexample: when the identifier space is fully used
(count = capacity = INT32_MAX), `alloc_node` takes the `exit(EXIT_FAILURE)`
path — modelled as `exitFailure` — terminating the process itself instead of
propagating a recoverable error to the caller. -/
theorem claim_C6_counterexample :
    alloc_node_caps INT32_MAX INT32_MAX true = AllocOutcome.exitFailure := by
  decide

/-- C6 (amended): when the identifier space is fully used the core terminates
the process itself via exit(EXIT_FAILURE); only an environmental `realloc`
failure is propagated to the caller as the recoverable INVALID_OFFSET
sentinel. -/
theorem claim_C6 (count capacity : Int) (rok : Bool)
    (hcap : capacity ≤ INT32_MAX) (h1 : count ≥ capacity) :
    (capacity = INT32_MAX →
      alloc_node_caps count capacity rok = AllocOutcome.exitFailure) ∧
    (capacity < INT32_MAX → rok = false →
      alloc_node_caps count capacity rok = AllocOutcome.reallocFail) := by
  simp only [alloc_node_caps]
  rw [if_pos h1]
  constructor
  · intro h2
    subst h2
    rw [if_pos (sub_self INT32_MAX)]
  · intro h2 h3
    subst h3
    have hrem : ¬ (INT32_MAX - capacity = 0) := by
      unfold INT32_MAX at h2 ⊢
      omega
    rw [if_neg hrem, if_neg Bool.false_ne_true]

theorem claim_C6_witness :
    alloc_node_caps INT32_MAX INT32_MAX false = AllocOutcome.exitFailure :=
  (claim_C6 INT32_MAX INT32_MAX false (by decide) (by decide)).1 rfl

/-- C7: the whole-tree dump emits exactly one edge statement per present child
slot over all allocated nodes; the subtree dump from `r` emits exactly one per
present child slot over the nodes its walk visits, and those visited nodes are
precisely (and without repetition) the nodes reachable from `r`. -/
theorem claim_C7 (ws : List (List Nat)) (r : Nat)
    (hws : ∀ u ∈ ws, ValidWord u) (hr : r < (buildTrie ws).length) :
    ((dump_dot_whole (buildTrie ws)).filter Stmt.isEdge).length
      = ((List.range (buildTrie ws).length).map (presentCount (buildTrie ws))).sum ∧
    (( dump_dot_prefix (buildTrie ws) (buildTrie ws).length r).filter Stmt.isEdge).length
      = ((reach_nodes (buildTrie ws) (buildTrie ws).length r).map
          (presentCount (buildTrie ws))).sum ∧
    (reach_nodes (buildTrie ws) (buildTrie ws).length r).Nodup ∧
    (∀ j, j ∈ reach_nodes (buildTrie ws) (buildTrie ws).length r
      ↔ Reaches (buildTrie ws) r j) := by
  obtain ⟨hInv, hNS, hpos, _⟩ := buildTrie_facts ws hws
  refine ⟨dump_whole_edge_count _, dump_sub_edge_count _ _ _,
    reach_nodes_nodup _ _ _ hInv hNS hr (by omega), ?_⟩
  intro j
  exact ⟨fun h => reach_nodes_sound _ _ _ _ hInv h,
    fun h => reach_nodes_complete _ _ _ _ hInv hr (by omega) h⟩

theorem claim_C7_witness :
    ((dump_dot_whole (buildTrie [[97]])).filter Stmt.isEdge).length
      = ((List.range (buildTrie [[97]]).length).map (presentCount (buildTrie [[97]]))).sum ∧
    (( dump_dot_prefix (buildTrie [[97]]) (buildTrie [[97]]).length 0).filter
        Stmt.isEdge).length
      = ((reach_nodes (buildTrie [[97]]) (buildTrie [[97]]).length 0).map
          (presentCount (buildTrie [[97]]))).sum ∧
    (reach_nodes (buildTrie [[97]]) (buildTrie [[97]]).length 0).Nodup ∧
    (∀ j, j ∈ reach_nodes (buildTrie [[97]]) (buildTrie [[97]]).length 0
      ↔ Reaches (buildTrie [[97]]) 0 j) :=
  claim_C7 [[97]] 0 (by decide) (by decide)

/-- C8: the slot invariant — every child slot of every allocated node is the
ABSENT sentinel or a valid in-use identifier in [0, count) — holds for the
built trie and is preserved by allocation and by insertion (descent and the
traversals never modify the pool in this model, being pure functions of it). -/
theorem claim_C8 (ws : List (List Nat)) (w : List Nat)
    (hws : ∀ u ∈ ws, ValidWord u) (hw : ValidWord w) :
    SlotsOK (buildTrie ws) ∧ SlotsOK ((alloc_node (buildTrie ws)).2) ∧
    SlotsOK (insert_text (buildTrie ws) 0 w) := by
  obtain ⟨hInv, _, hpos, _⟩ := buildTrie_facts ws hws
  exact ⟨SlotsOK_of_Inv _ hInv,
    SlotsOK_of_Inv _ (Inv_append_fresh _ hInv),
    SlotsOK_of_Inv _ (Inv_insert w _ 0 hInv hpos hw)⟩

theorem claim_C8_witness :
    SlotsOK (buildTrie [[97]]) ∧ SlotsOK ((alloc_node (buildTrie [[97]])).2) ∧
    SlotsOK (insert_text (buildTrie [[97]]) 0 [98, 99]) :=
  claim_C8 [[97]] [98, 99] (by decide) (by decide)

/-- C9: a successful allocation returns the next fresh identifier (the old
count), whose node has terminal = false and every child slot equal to the
ABSENT sentinel; the byte-wise memset of the int32 slots with -1 indeed
produces the value -1 in every slot. -/
theorem claim_C9 (pool : List Node) (k : Nat) (hk : k < CHILDREN_COUNT) :
    int32_all_bytes (memset_byte INVALID_OFFSET) = INVALID_OFFSET ∧
    (alloc_node pool).1 = Int.ofNat pool.length ∧
    (getNode (alloc_node pool).2 pool.length).terminal = false ∧
    (getNode (alloc_node pool).2 pool.length).children.getD k INVALID_OFFSET
      = INVALID_OFFSET := by
  refine ⟨by decide, rfl, ?_, ?_⟩
  · show (getNode (pool ++ [freshNode]) pool.length).terminal = false
    rw [getNode_append_len]
    rfl
  · show (getNode (pool ++ [freshNode]) pool.length).children.getD k INVALID_OFFSET
      = INVALID_OFFSET
    rw [getNode_append_len]
    exact childAt_freshNode _ _ fresh_children

theorem claim_C9_witness :
    int32_all_bytes (memset_byte INVALID_OFFSET) = INVALID_OFFSET ∧
    (alloc_node []).1 = Int.ofNat (List.length ([] : List Node)) ∧
    (getNode (alloc_node []).2 (List.length ([] : List Node))).terminal = false ∧
    (getNode (alloc_node []).2 (List.length ([] : List Node))).children.getD 0
      INVALID_OFFSET = INVALID_OFFSET :=
  claim_C9 [] 0 (by decide)

/-- C10: `find_prefix` pushes onto the shared buffer exactly the query bytes
it successfully matches — also when it ultimately fails: on a NotFound result
the buffer keeps the bytes consumed before the missing child slot (no
rollback), the unconsumed remainder starting at a byte whose slot is ABSENT at
the node the consumed bytes lead to. -/
theorem claim_C10 (pool : List Node) (r : Nat) (p buf : List Nat) :
    ( find_prefix pool r p buf).2 = buf ++ consumed pool r p ∧
    (( find_prefix pool r p buf).1 = INVALID_OFFSET →
      ∃ c rest j, p = consumed pool r p ++ c :: rest ∧
        lookup pool r (consumed pool r p) = some j ∧
        childAt pool j (c - ASCII_OFFSET) = INVALID_OFFSET) := by
  refine ⟨find_prefix_buf p pool r buf, ?_⟩
  intro hfail
  have hnone : lookup pool r p = none := by
    cases hl : lookup pool r p with
    | none => rfl
    | some j =>
        rw [find_prefix_fst_some p pool r buf j hl] at hfail
        exact absurd hfail (ofNat_ne_invalid j)
  exact lookup_none_decomp p pool r hnone

theorem claim_C10_witness :
    ( find_prefix (buildTrie [[99, 97]]) 0 [99, 98] []).2
      = [] ++ consumed (buildTrie [[99, 97]]) 0 [99, 98] ∧
    (∃ c rest j, [99, 98] = consumed (buildTrie [[99, 97]]) 0 [99, 98] ++ c :: rest ∧
      lookup (buildTrie [[99, 97]]) 0 (consumed (buildTrie [[99, 97]]) 0 [99, 98])
        = some j ∧
      childAt (buildTrie [[99, 97]]) j (c - ASCII_OFFSET) = INVALID_OFFSET) :=
  ⟨(claim_C10 (buildTrie [[99, 97]]) 0 [99, 98] []).1,
    (claim_C10 (buildTrie [[99, 97]]) 0 [99, 98] []).2 (by decide)⟩

end Trie
